import Mathlib

/-!
Shallow embedding of the sod object database (github.com/0xrawsec/sod) for
checking its natural-language specification.

Modelling conventions, stated once:

* Go `int64` / `uint64` index values are modelled as `Int` / `Nat`: only
  comparisons are performed on them, never arithmetic, so machine width is
  irrelevant.  The `float64` case of the value domain is omitted (floating
  point is outside the shallow embedding); no claim under study involves it.
* Go string comparison is byte-wise lexicographic; we use Lean `String`
  ordering, which is lexicographic on characters.  All properties proved are
  generic in the total order, so the difference is immaterial.
* Cross-type comparisons panic in Go (failed type assertions).  Here they
  return junk (`false`); every theorem that involves comparisons carries the
  homogeneity hypotheses under which Go never panics, so the junk branch is
  never exercised in a proof.
* Go maps are modelled as association lists (`aset` / `alookup` / `aerase`);
  Go map iteration order is unspecified, the model fixes the list order.
  Observable properties proved are order-insensitive.
* Go panics are modelled by explicit result constructors (`DeleteRes`,
  `MRes.panicked`, `Option` with `none` = panic), never by junk values.
-/

namespace Sod

/-- The value tags of the index engine, cf. `indexedField.valueTypeString`
in the source (float64 omitted, see file header). -/
inductive ValueTy where
  | i64 : ValueTy
  | u64 : ValueTy
  | str : ValueTy
deriving DecidableEq

/-- The typed scalar stored in an index entry, cf. the closed set of cases
accepted by `newIndexedField` after widening. -/
inductive Value where
  | vint : Int → Value
  | vuint : Nat → Value
  | vstr : String → Value
deriving DecidableEq

def Value.ty : Value → ValueTy
  | .vint _ => .i64
  | .vuint _ => .u64
  | .vstr _ => .str

/-- `indexedField.less`: type-switch comparison.  Mixed cases panic in Go;
here they give `false` (never reached under the homogeneity hypotheses). -/
def Value.less : Value → Value → Bool
  | .vint a, .vint b => decide (a < b)
  | .vuint a, .vuint b => decide (a < b)
  | .vstr a, .vstr b => decide (a < b)
  | _, _ => false

/-- `indexedField.equal`: type-switch equality (mixed cases panic in Go). -/
def Value.equal : Value → Value → Bool
  | .vint a, .vint b => decide (a = b)
  | .vuint a, .vuint b => decide (a = b)
  | .vstr a, .vstr b => decide (a = b)
  | _, _ => false

/-- `indexedField.valueTypeString`. -/
def ValueTy.string : ValueTy → String
  | .i64 => "int64"
  | .u64 => "uint64"
  | .str => "string"

/-- `indexedField`: one entry of a field index. -/
structure IndexedField where
  value : Value
  objectId : Nat
deriving DecidableEq

def IndexedField.less (f o : IndexedField) : Bool := f.value.less o.value

def IndexedField.equal (f o : IndexedField) : Bool := f.value.equal o.value

/-- `indexedField.deepEqual`: object id first, then value. -/
def IndexedField.deepEqual (f o : IndexedField) : Bool :=
  if f.objectId ≠ o.objectId then false else f.equal o

/-- `indexedField.greater` as defined in the source. -/
def IndexedField.greater (f o : IndexedField) : Bool :=
  !(f.less o) && !(f.equal o)

def IndexedField.valueTypeString (f : IndexedField) : String := f.value.ty.string

/-- Out-of-range slice accesses panic in Go; the default is never read under
the bound hypotheses carried by the theorems. -/
def dfltField : IndexedField := ⟨Value.vint 0, 0⟩

def idxGet (l : List IndexedField) (n : Nat) : IndexedField := l.getD n dfltField

/-- Sorted descending, the order convention of `fieldIndex` ("by convention
the smallest value is at the end"). -/
def SortedDesc (l : List IndexedField) : Prop :=
  List.Pairwise (fun a b => a.less b = false) l

instance : DecidablePred SortedDesc := fun l =>
  List.instDecidablePairwise l

/-- All values of the sequence have tag `t`. -/
def HomogTy (t : ValueTy) (l : List IndexedField) : Prop :=
  ∀ f ∈ l, f.value.ty = t

instance (t : ValueTy) : DecidablePred (HomogTy t) := fun l =>
  List.decidableBAll _ l

/-- `fieldIndex.insertionIndexRec`, with explicit fuel: the Go recursion
terminates for every call the program makes (strictly shrinking live range);
the fuel given by `InsertionIndex` is shown sufficient in the proofs. -/
def insertionIndexRec (l : List IndexedField) (k : IndexedField) :
    Nat → Nat → Nat → Nat
  | 0, _, j => j
  | fuel + 1, i, j =>
    if l.length = 0 then 0
    else if l.length = 1 then
      if (idxGet l 0).less k then 0 else 1
    else if j - i = 1 then
      if (idxGet l i).less k then i else j
    else
      let pivot := (j + 1 - i) / 2 + i
      if (idxGet l pivot).less k then insertionIndexRec l k fuel i pivot
      else insertionIndexRec l k fuel pivot j

/-- `fieldIndex.InsertionIndex`. -/
def InsertionIndex (l : List IndexedField) (k : IndexedField) : Nat :=
  insertionIndexRec l k (l.length + 1) 0 l.length

/-- The stable error kinds of the package (`errors.New` values).  Wrapping
layers added by `fmt.Errorf("%w ...")` are dropped: errors are identified up
to `errors.Is`, which is what every caller of the package uses. -/
inductive Err where
  | fieldUnique
  | unknownField (f : String)
  | fieldNotIndexed (f : String)
  | unknownSearchOperator (op : String)
  | casting (cast : String)
  | unknownKeyType
  | wrongObjectType (expected got : String)
  | invalidObject (uuid : String)
  | noObjectFound
  | indexCorrupted
  | schemaNotFound (t : String)
  | regexCompile (pattern : String)
deriving DecidableEq

/-- Result of a state-mutating Go method: `ok`, an error together with the
state as mutated so far (Go returns the error with the receiver already
partially updated), or a panic. -/
inductive MRes (σ : Type) where
  | ok (s : σ)
  | err (e : Err) (s : σ)
  | panicked
deriving DecidableEq

/-- Go map lookup, modelled on an association list. -/
def alookup {K V : Type} [DecidableEq K] : List (K × V) → K → Option V
  | [], _ => none
  | (k', v) :: t, k => if k' = k then some v else alookup t k

/-- Go map assignment `m[k] = v`: replace the binding if present, else add. -/
def aset {K V : Type} [DecidableEq K] : List (K × V) → K → V → List (K × V)
  | [], k, v => [(k, v)]
  | (k', v') :: t, k, v =>
    if k' = k then (k, v) :: t else (k', v') :: aset t k v

/-- Go map deletion `delete(m, k)`. -/
def aerase {K V : Type} [DecidableEq K] : List (K × V) → K → List (K × V)
  | [], _ => []
  | (k', v') :: t, k => if k' = k then t else (k', v') :: aerase t k

/-- `Constraints`: the per-field constraint flags. -/
structure Constraints where
  index : Bool
  unique : Bool
  upper : Bool
  lower : Bool
deriving DecidableEq

def noConstraint : Constraints := ⟨false, false, false, false⟩

/-- `Constraints.Transformer`. -/
def Constraints.transformer (c : Constraints) : Bool := c.upper || c.lower

/-- `Constraints.transform` on one value: upper case then lower case are
applied in sequence, exactly as in the source (only strings are affected). -/
def Constraints.applyTransform (c : Constraints) (v : Value) : Value :=
  let v1 := if c.upper then
      match v with
      | .vstr s => .vstr s.toUpper
      | x => x
    else v
  if c.lower then
    match v1 with
    | .vstr s => .vstr s.toLower
    | x => x
  else v1

/-- `FieldDescriptor`: dotted path, static type name, constraints. -/
structure FieldDescriptor where
  path : String
  type : String
  constraints : Constraints
deriving DecidableEq

/-- `fieldIndex`.  The dotted-path splitting (`nameSplit`) done by Go
reflection is flattened: record fields are addressed by their full dotted
path, so `name` doubles as the lookup key. -/
structure FieldIndex where
  name : String
  cast : String
  constraints : Constraints
  index : List IndexedField
  objectIds : List (Nat × IndexedField)
deriving DecidableEq

/-- `newFieldIndex` (the len/cap options only pre-size the Go slice). -/
def newFieldIndex (desc : FieldDescriptor) : FieldIndex :=
  ⟨desc.path, "", desc.constraints, [], []⟩

/-- `fieldIndex.Initialize`: record the value tag on first contact. -/
def FieldIndex.Initialize (fi : FieldIndex) (k : IndexedField) : FieldIndex :=
  if fi.cast = "" then { fi with cast := k.valueTypeString } else fi

/-- The final `i` of `fieldIndex.rangeEqual`: starting just below the
insertion index, walk left while entries equal the probe; the argument is
one past the starting position (`InsertionIndex`), the result is the final
`i + 1` of the Go loop (always non-negative). -/
def eqScan (l : List IndexedField) (k : IndexedField) : Nat → Nat
  | 0 => 0
  | n + 1 => if (idxGet l n).equal k then eqScan l k n else n + 1

/-- Go slice expression `l[a:b]` (bounds are valid in every reachable call;
out-of-range values are clipped where Go would panic). -/
def goSlice (l : List IndexedField) (a : Nat) (b : Int) : List IndexedField :=
  (l.drop a).take (b - (a : Int)).toNat

/-- `fieldIndex.SearchEqual` (inlining `rangeEqual`, whose `j` component is
the Go `int` `InsertionIndex - 1`, possibly `-1`). -/
def SearchEqual (l : List IndexedField) (k : IndexedField) :
    List IndexedField :=
  let i := eqScan l k (InsertionIndex l k)
  let j : Int := (InsertionIndex l k : Int) - 1
  if (i : Int) = j then
    if 0 < l.length then [idxGet l i] else goSlice l i (j + 1)
  else goSlice l i (j + 1)

/-- `fieldIndex.SearchNotEqual`. -/
def SearchNotEqual (l : List IndexedField) (k : IndexedField) :
    List IndexedField :=
  let i := eqScan l k (InsertionIndex l k)
  l.take i ++ l.drop (InsertionIndex l k)

/-- `fieldIndex.SearchGreaterOrEqual`. -/
def SearchGreaterOrEqual (l : List IndexedField) (k : IndexedField) :
    List IndexedField :=
  let i := InsertionIndex l k
  if i = 0 then [] else l.take i

/-- The backward scan shared by `SearchGreater` and `SearchLessOrEqual`:
starting at the position below the argument, walk left until an entry is
strictly greater than the probe; result is the Go `int` `i` (maybe `-1`). -/
def backScanGreater (l : List IndexedField) (k : IndexedField) : Nat → Int
  | 0 => -1
  | n + 1 => if (idxGet l n).greater k then (n : Int) else backScanGreater l k n

/-- `fieldIndex.SearchGreater`. -/
def SearchGreater (l : List IndexedField) (k : IndexedField) :
    List IndexedField :=
  let i0 : Int := InsertionIndex l k
  let i1 : Int := if i0 > (l.length : Int) - 1 then i0 - 1 else i0
  let i2 : Int := backScanGreater l k (i1 + 1).toNat
  if i2 = 0 ∧ 0 < l.length ∧ (idxGet l 0).greater k then [idxGet l 0]
  else goSlice l 0 (i2 + 1)

/-- `fieldIndex.SearchLess`. -/
def SearchLess (l : List IndexedField) (k : IndexedField) :
    List IndexedField :=
  let i := InsertionIndex l k
  if (i : Int) > (l.length : Int) - 1 then [] else l.drop i

/-- `fieldIndex.SearchLessOrEqual`. -/
def SearchLessOrEqual (l : List IndexedField) (k : IndexedField) :
    List IndexedField :=
  let i0 : Int := InsertionIndex l k
  let i1 : Int := if i0 > (l.length : Int) - 1 then i0 - 1 else i0
  let i2 : Int := backScanGreater l k (i1 + 1).toNat
  l.drop (i2 + 1).toNat

/-- The scan of `fieldIndex.SearchByRegex`: `none` is the Go nil-pointer
panic (`rex` nil but a string entry is met); a non-string entry returns the
matches accumulated so far with a nil error, as in the source. -/
def searchByRegexLoop (matcher : Option (String → Bool)) :
    List IndexedField → Option (List IndexedField)
  | [] => some []
  | f :: rest =>
    match f.value with
    | .vstr s =>
      match matcher with
      | none => none
      | some m =>
        (searchByRegexLoop (some m) rest).map
          (fun out => if m s then f :: out else out)
    | _ => some []

/-- `fieldIndex.SearchByRegex`.  The Go regexp engine is external to the
package; it is abstracted as `compile`, returning `none` exactly when the
pattern does not compile. -/
def SearchByRegex (compile : String → Option (String → Bool))
    (l : List IndexedField) (value : IndexedField) :
    Option (Except Err (List IndexedField)) :=
  match value.value with
  | .vstr pat =>
    match compile pat with
    | none => some (.error (.regexCompile pat))
    | some m => (searchByRegexLoop (some m) l).map .ok
  | _ => (searchByRegexLoop none l).map .ok

/-- `fieldIndex.Satisfy`: the uniqueness constraint check. -/
def FieldIndex.Satisfy (fi : FieldIndex) (objid : Nat) (exist : Bool)
    (fvalue : IndexedField) : Option Err :=
  if fi.constraints.unique then
    let equals := SearchEqual fi.index fvalue
    if equals.length > 1 then some .fieldUnique
    else if equals.length = 1 then
      if !exist || (idxGet equals 0).objectId ≠ objid then some .fieldUnique
      else none
    else none
  else none

/-- Insertion of an already-built entry at `InsertionIndex`
(`fieldIndex.insert`; the Go append-and-shift is the plain insertion at
position `i`, the `i > lastIndex` branch appends). -/
def FieldIndex.insert (fi : FieldIndex) (field : IndexedField) : FieldIndex :=
  let i := InsertionIndex fi.index field
  let idx :=
    if (i : Int) > (fi.index.length : Int) - 1 then fi.index ++ [field]
    else fi.index.take i ++ field :: fi.index.drop i
  { fi with index := idx, objectIds := aset fi.objectIds field.objectId field }

/-- `fieldIndex.Insert`.  `newIndexedField` cannot fail here: the model's
`Value` is the closed post-widening domain, the Go error branch corresponds
to raw inputs outside it. -/
def FieldIndex.Insert (fi : FieldIndex) (value : Value) (objid : Nat) :
    FieldIndex :=
  let field : IndexedField := ⟨value, objid⟩
  (fi.Initialize field).insert field

/-- The linear part of `fieldIndex.SearchKey`: first position in
`[p, p + steps)` holding an entry `deepEqual` to the key. -/
def firstDeepEqualFrom (l : List IndexedField) (k : IndexedField) :
    Nat → Nat → Option Nat
  | 0, _ => none
  | steps + 1, p =>
    if (idxGet l p).deepEqual k then some p
    else firstDeepEqualFrom l k steps (p + 1)

/-- `fieldIndex.SearchKey`. -/
def SearchKey (l : List IndexedField) (k : IndexedField) : Nat × Bool :=
  let i := eqScan l k (InsertionIndex l k)
  let j : Int := (InsertionIndex l k : Int) - 1
  if (i : Int) = j then (i, (idxGet l i).deepEqual k)
  else
    match firstDeepEqualFrom l k (InsertionIndex l k - i) i with
    | some p => (p, true)
    | none => (0, false)

/-- Result of `fieldIndex.Delete`, whose failure modes are panics, not
errors. -/
inductive DeleteRes where
  | ok (fi : FieldIndex)
  | panicObjectIdNotFound
  | panicKeyNotFound
deriving DecidableEq

/-- `fieldIndex.Delete`. -/
def FieldIndex.Delete (fi : FieldIndex) (objid : Nat) : DeleteRes :=
  match alookup fi.objectIds objid with
  | none => .panicObjectIdNotFound
  | some field =>
    let r := SearchKey fi.index field
    if r.2 then
      let idx := if fi.index.length = 1 then [] else fi.index.eraseIdx r.1
      .ok { fi with index := idx, objectIds := aerase fi.objectIds objid }
    else .panicKeyNotFound

/-- `fieldIndex.Update` = `Delete` then `Insert`; `none` is the propagated
panic of `Delete`. -/
def FieldIndex.Update (fi : FieldIndex) (value : Value) (objid : Nat) :
    Option FieldIndex :=
  match fi.Delete objid with
  | .ok fi1 => some (fi1.Insert value objid)
  | _ => none

/-- `fieldIndex.Constrain`: restrict to entries whose object id appears in
the argument, preserving this index's ordering.  Note the fresh index keeps
the zero descriptor, in particular an empty `cast`. -/
def FieldIndex.Constrain (fi : FieldIndex) (fields : List IndexedField) :
    FieldIndex :=
  fields.foldl
    (fun acc f =>
      match alookup fi.objectIds f.objectId with
      | some field => acc.insert field
      | none => acc)
    (newFieldIndex ⟨"", "", noConstraint⟩)

/-- `fieldIndex.Control`: ordered iff consecutive entries never increase. -/
def FieldIndex.Control (fi : FieldIndex) : Bool :=
  List.Chain' (fun v tv => v.equal tv || tv.less v) fi.index

/-- A record (`Object` + the reflection surface used by the indexing code).
`fields` is the flattened dotted-path view of the record, `typ` its static
type name (`stype`), `valid` the outcome of its `Validate` hook. -/
structure Obj where
  uuid : String
  typ : String
  fields : List (String × Value)
  valid : Bool
deriving DecidableEq

/-- `fieldByName`: reflection lookup by dotted path, flattened to an
association-list lookup (cf. `FieldIndex.name`). -/
def fieldByName (o : Obj) (path : String) : Option Value :=
  alookup o.fields path

/-- `objIndex`. -/
structure ObjIndex where
  i : Nat
  uuids : List (String × Nat)
  fields : List (String × FieldIndex)
  objectIds : List (Nat × String)
deriving DecidableEq

/-- `newIndex`: one field index per descriptor carrying `index` or
`unique`. -/
def newIndex (fds : List FieldDescriptor) : ObjIndex :=
  { i := 0, uuids := [], objectIds := [],
    fields :=
      (fds.filter (fun fd => fd.constraints.index || fd.constraints.unique)).map
        (fun fd => (fd.path, newFieldIndex fd)) }

/-- The loop of `objIndex.satisfyAll`. -/
def satisfyAllLoop (I : ObjIndex) (o : Obj) :
    List (String × FieldIndex) → Option Err
  | [] => none
  | (fn, fi) :: rest =>
    match fieldByName o fi.name with
    | none => some (.unknownField fn)
    | some v =>
      let iField : IndexedField := ⟨v, 0⟩
      let oid := alookup I.uuids o.uuid
      match fi.Satisfy (oid.getD 0) oid.isSome iField with
      | some e => some e
      | none => satisfyAllLoop I o rest

/-- `objIndex.satisfyAll`. -/
def ObjIndex.satisfyAll (I : ObjIndex) (o : Obj) : Option Err :=
  satisfyAllLoop I o I.fields

/-- The update loop of `objIndex.insertOrUpdate` (known object): every field
index is updated in place; an error keeps the updates already made. -/
def updateFieldsLoop (o : Obj) (i : Nat) :
    List (String × FieldIndex) → MRes (List (String × FieldIndex))
  | [] => .ok []
  | (fn, fi) :: rest =>
    match fieldByName o fi.name with
    | none => .err (.unknownField fn) ((fn, fi) :: rest)
    | some v =>
      match fi.Update v i with
      | none => .panicked
      | some fi1 =>
        match updateFieldsLoop o i rest with
        | .ok rest1 => .ok ((fn, fi1) :: rest1)
        | .err e rest1 => .err e ((fn, fi1) :: rest1)
        | .panicked => .panicked

/-- The insert loop of `objIndex.insertOrUpdate` (new object). -/
def insertFieldsLoop (o : Obj) (i : Nat) :
    List (String × FieldIndex) → MRes (List (String × FieldIndex))
  | [] => .ok []
  | (fn, fi) :: rest =>
    match fieldByName o fi.name with
    | none => .err (.unknownField fn) ((fn, fi) :: rest)
    | some v =>
      match insertFieldsLoop o i rest with
      | .ok rest1 => .ok ((fn, fi.Insert v i) :: rest1)
      | .err e rest1 => .err e ((fn, fi.Insert v i) :: rest1)
      | .panicked => .panicked

/-- `objIndex.insertOrUpdate`: constraints first (`satisfyAll`), then either
the update path (known UUID) or the insert path; on the insert path the two
identity maps are extended only after every field insert succeeded ("we
insert after any potential error"). -/
def ObjIndex.insertOrUpdate (I : ObjIndex) (o : Obj) : MRes ObjIndex :=
  match I.satisfyAll o with
  | some e => .err e I
  | none =>
    match alookup I.uuids o.uuid with
    | some i =>
      match updateFieldsLoop o i I.fields with
      | .ok fs => .ok { I with fields := fs }
      | .err e fs => .err e { I with fields := fs }
      | .panicked => .panicked
    | none =>
      match insertFieldsLoop o I.i I.fields with
      | .ok fs =>
        .ok { I with fields := fs,
                     objectIds := aset I.objectIds I.i o.uuid,
                     uuids := aset I.uuids o.uuid I.i,
                     i := I.i + 1 }
      | .err e fs => .err e { I with fields := fs }
      | .panicked => .panicked

/-- The loop of `objIndex.deleteByUUID`; `none` propagates the panics of
`fieldIndex.Delete`. -/
def deleteFieldsLoop (i : Nat) :
    List (String × FieldIndex) → Option (List (String × FieldIndex))
  | [] => some []
  | (fn, fi) :: rest =>
    match fi.Delete i with
    | .ok fi1 => (deleteFieldsLoop i rest).map (fun fs => (fn, fi1) :: fs)
    | _ => none

/-- `objIndex.deleteByUUID`. -/
def ObjIndex.deleteByUUID (I : ObjIndex) (uuid : String) : Option ObjIndex :=
  match alookup I.uuids uuid with
  | none => some I
  | some i =>
    (deleteFieldsLoop i I.fields).map
      (fun fs =>
        { I with fields := fs,
                 objectIds := aerase I.objectIds i,
                 uuids := aerase I.uuids uuid })

/-- `objIndex.search`.  `searchField` cannot fail on the closed value
domain; the outer `Option` is the Go panic of `SearchByRegex` (nil regex).
The casting guard runs before the optional `Constrain`. -/
def ObjIndex.search (compile : String → Option (String → Bool))
    (I : ObjIndex) (o : Obj) (field operator : String) (value : Value)
    (constrain : Option (List IndexedField)) :
    Option (Except Err (List IndexedField)) :=
  match fieldByName o field with
  | none => some (.error (.unknownField field))
  | some _ =>
    let iField : IndexedField := ⟨value, 0⟩
    match alookup I.fields field with
    | none => some (.error (.fieldNotIndexed field))
    | some fi0 =>
      if fi0.cast ≠ iField.valueTypeString then
        some (.error (.casting fi0.cast))
      else
        let fi := match constrain with
          | some c => fi0.Constrain c
          | none => fi0
        match operator with
        | "!=" => some (.ok (SearchNotEqual fi.index iField))
        | "=" => some (.ok (SearchEqual fi.index iField))
        | ">" => some (.ok (SearchGreater fi.index iField))
        | ">=" => some (.ok (SearchGreaterOrEqual fi.index iField))
        | "<" => some (.ok (SearchLess fi.index iField))
        | "<=" => some (.ok (SearchLessOrEqual fi.index iField))
        | "~=" => SearchByRegex compile fi.index iField
        | op => some (.error (.unknownSearchOperator op))

/-- `indexedField.evaluate` (full-scan comparison); `none` is a panic
(unknown operator, or the nil-regex dereference). -/
def IndexedField.evaluate (compile : String → Option (String → Bool))
    (f : IndexedField) (operator : String) (other : IndexedField) :
    Option Bool :=
  match operator with
  | "!=" => some (!(f.equal other))
  | "=" => some (f.equal other)
  | ">" => some (f.greater other)
  | ">=" => some (f.greater other || f.equal other)
  | "<" => some (f.less other)
  | "<=" => some (f.less other || f.equal other)
  | "~=" =>
    match other.value with
    | .vstr pat =>
      match compile pat with
      | none => some false
      | some m =>
        match f.value with
        | .vstr s => some (m s)
        | _ => some false
    | _ =>
      match f.value with
      | .vstr _ => none
      | _ => some false
  | _ => none

/-- `Schema`.  `extension`, `compress` and the transient back-references do
not influence any claim under study and are omitted; `typ` is the registered
record type name keying the schema. -/
structure Schema where
  typ : String
  fields : List FieldDescriptor
  objectIndex : ObjIndex
  cacheFlag : Bool
  asyncEnabled : Bool
deriving DecidableEq

/-- `Schema.mustCache` (from the source: cache or async writes). -/
def Schema.mustCache (s : Schema) : Bool := s.cacheFlag || s.asyncEnabled

/-- `Schema.asyncWritesEnabled`. -/
def Schema.asyncWritesEnabled (s : Schema) : Bool := s.asyncEnabled

/-- Modelled from the spec: the current `Schema.transform` is not under
`src/`; §4.5 — "applies every transformer descriptor in order, mutating the
record in place" (each descriptor transforms its own field, via
`Constraints.transform`, which is under `src/`). -/
def Schema.transform (s : Schema) (o : Obj) : Obj :=
  let transformers := s.fields.filter (fun d => d.constraints.transformer)
  let fs := transformers.foldl
    (fun fs d =>
      fs.map (fun kv =>
        if kv.1 = d.path then (kv.1, d.constraints.applyTransform kv.2)
        else kv))
    o.fields
  { o with fields := fs }

/-- Modelled from the spec: `Schema.prepare` is not under `src/`; §4.5 —
"same transform applied to a standalone search value". -/
def Schema.prepare (s : Schema) (field : String) (v : Value) : Value :=
  (s.fields.filter
      (fun d => d.path = field && d.constraints.transformer)).foldl
    (fun w d => d.constraints.applyTransform w) v

/-- Modelled from the spec: `Schema.makeTmpIndex` is not under `src/`;
§4.8 — "a temporary auxiliary object index is used to detect conflicts
within the batch": a fresh empty index over the schema's descriptors. -/
def Schema.makeTmpIndex (s : Schema) : ObjIndex := newIndex s.fields

/-- Modelled from the spec: the current `Schema.index` is not under `src/`;
§4.8 write path step (4) — delegates to the object index (as the older
in-tree version `Schema.Index` also does). -/
def Schema.index (s : Schema) (o : Obj) : MRes Schema :=
  match s.objectIndex.insertOrUpdate o with
  | .ok I => .ok { s with objectIndex := I }
  | .err e I => .err e { s with objectIndex := I }
  | .panicked => .panicked

/-- The database state visible to the claims, for one registered type: the
schema (owning the object index), the cache shard, the async-write queue
shard, the object files on disk (keyed by UUID), and the committed schema
document.  File-system failures are not modelled (the filesystem is outside
the specification's scope). -/
structure DBState where
  schema : Schema
  cache : List (String × Obj)
  asyncq : List (String × Obj)
  disk : List (String × Obj)
  schemaDisk : Option Schema
deriving DecidableEq

/-- `db.commit`: persist the schema (with its index) to disk. -/
def DBState.commit (db : DBState) : DBState :=
  { db with schemaDisk := some db.schema }

/-- `db.writeObject`. -/
def DBState.writeObject (db : DBState) (o : Obj) : DBState :=
  { db with disk := aset db.disk o.uuid o }

/-- First supplied UUID not colliding with a file on disk (the re-roll loop
of `db.initialize`). -/
def pickFresh (disk : List (String × Obj)) :
    List String → Option (String × List String)
  | [] => none
  | u :: rest =>
    if (alookup disk u).isSome then pickFresh disk rest else some (u, rest)

/-- `db.initialize`: assign a fresh UUID when empty, re-rolling on disk
collisions.  `supply` models the external random UUID source; `none` (the
supply ran dry) stands for the non-terminating/panicking behaviours of the
generator, unreachable with an adequate supply. -/
def initializeObj (supply : List String) (db : DBState) (o : Obj) :
    Option (Obj × List String) :=
  if o.uuid ≠ "" then some (o, supply)
  else
    match pickFresh db.disk supply with
    | none => none
    | some (u, rest) => some ({ o with uuid := u }, rest)

/-- `db.insertOrUpdate` (the private single-object write path): initialize,
cache (before indexing), index, then queue or persist (+ optional commit). -/
def DBState.insertOrUpdate (db : DBState) (o : Obj) (commit : Bool)
    (supply : List String) : MRes (DBState × List String) :=
  match initializeObj supply db o with
  | none => .panicked
  | some (o1, supply1) =>
    let db1 :=
      if db.schema.mustCache then { db with cache := aset db.cache o1.uuid o1 }
      else db
    match db1.schema.index o1 with
    | .panicked => .panicked
    | .err e s1 => .err e ({ db1 with schema := s1 }, supply1)
    | .ok s1 =>
      let db2 := { db1 with schema := s1 }
      if db2.schema.asyncWritesEnabled then
        .ok ({ db2 with asyncq := aset db2.asyncq o1.uuid o1 }, supply1)
      else
        let db3 := db2.writeObject o1
        if commit then .ok (db3.commit, supply1) else .ok (db3, supply1)

/-- `db.InsertOrUpdate` (public): user `Transform` hook (the parameter
`otransform`), schema transform, `Validate`, then the private path with a
commit. -/
def DBState.InsertOrUpdate (otransform : Obj → Obj) (db : DBState) (o : Obj)
    (supply : List String) : MRes (DBState × List String) :=
  if db.schema.typ ≠ o.typ then .err (.schemaNotFound o.typ) (db, supply)
  else
    let o1 := db.schema.transform (otransform o)
    if o1.valid = false then .err (.invalidObject o1.uuid) (db, supply)
    else db.insertOrUpdate o1 true supply

/-- The validation loop of `db.InsertOrUpdateMany`: initialize, same-type
check, transforms, `Validate`, batch-local constraint check on the temporary
index, constraint check on the live index.  It never touches the database
state; it returns the checked objects for the insertion phase. -/
def validateLoop (otransform : Obj → Obj) (schema : Schema)
    (expType : String) (db : DBState) (tmp : ObjIndex)
    (supply : List String) :
    List Obj → MRes (List Obj × ObjIndex × List String)
  | [] => .ok ([], tmp, supply)
  | o :: rest =>
    match initializeObj supply db o with
    | none => .panicked
    | some (o1, supply1) =>
      if o1.typ ≠ expType then
        .err (.wrongObjectType expType o1.typ) ([], tmp, supply1)
      else
        let o2 := schema.transform (otransform o1)
        if o2.valid = false then .err (.invalidObject o2.uuid) ([], tmp, supply1)
        else
          match tmp.insertOrUpdate o2 with
          | .panicked => .panicked
          | .err e tmp1 => .err e ([], tmp1, supply1)
          | .ok tmp1 =>
            match schema.objectIndex.satisfyAll o2 with
            | some e => .err e ([], tmp1, supply1)
            | none =>
              match validateLoop otransform schema expType db tmp1 supply1 rest with
              | .ok (os, tmpF, supplyF) => .ok (o2 :: os, tmpF, supplyF)
              | .err e st => .err e st
              | .panicked => .panicked

/-- The insertion loop of `db.InsertOrUpdateMany`: each object through the
private write path without commit; the first failure breaks the loop
keeping the count. -/
def insertLoop (db : DBState) (n : Nat) (supply : List String) :
    List Obj → MRes (Nat × DBState × List String)
  | [] => .ok (n, db, supply)
  | o :: rest =>
    match db.insertOrUpdate o false supply with
    | .panicked => .panicked
    | .err e (db1, supply1) => .err e (n, db1, supply1)
    | .ok (db1, supply1) => insertLoop db1 (n + 1) supply1 rest

/-- `db.InsertOrUpdateMany`: validation phase over the whole batch (against
a temporary index), then the insertion phase, then one schema commit (the
commit, a plain state update here, is attempted even after an insertion
error, and cannot itself fail in the model). -/
def DBState.InsertOrUpdateMany (otransform : Obj → Obj) (db : DBState)
    (os : List Obj) (supply : List String) : MRes (Nat × DBState) :=
  match os with
  | [] => .ok (0, db)
  | o0 :: _ =>
    if db.schema.typ ≠ o0.typ then .err (.schemaNotFound o0.typ) (0, db)
    else
      match validateLoop otransform db.schema o0.typ db db.schema.makeTmpIndex
          supply os with
      | .panicked => .panicked
      | .err e _ => .err e (0, db)
      | .ok (objs, _, supply1) =>
        match insertLoop db 0 supply1 objs with
        | .panicked => .panicked
        | .err e (n, db1, _) => .err e (n, db1.commit)
        | .ok (n, db1, _) => .ok (n, db1.commit)

/-- The `Search` builder; only the parts the claims mention are kept
(`limit`, `reverse` and the `db`/object back-references play no role in the
claims under study). -/
structure Search where
  fields : List IndexedField
  error : Option Err
deriving DecidableEq

/-- `Search.Or`.  The fresh probe `db.search(s.object, field, operator,
value, nil)` is passed as the argument `fresh`; the prior result is merged
into it behind a mark set of the fresh object ids. -/
def Search.Or (s : Search) (fresh : Search) : Search :=
  if s.error.isSome then s
  else
    let marked : List (Nat × Bool) :=
      fresh.fields.foldl (fun m f => aset m f.objectId true) []
    let merged := s.fields.foldl
      (fun acc f =>
        if (alookup marked f.objectId).isSome then acc else acc ++ [f])
      fresh.fields
    { fresh with fields := merged }

/-- `db.get` by UUID (read path): cache first when enabled, then the object
file; a missing file is `NoObjectFound`; a disk read fills the cache. -/
def DBState.getByUUID (db : DBState) (uuid : String) :
    Except Err Obj × DBState :=
  if db.schema.mustCache then
    match alookup db.cache uuid with
    | some o => (.ok o, db)
    | none =>
      match alookup db.disk uuid with
      | none => (.error .noObjectFound, db)
      | some o => (.ok o, { db with cache := aset db.cache uuid o })
  else
    match alookup db.disk uuid with
    | none => (.error .noObjectFound, db)
    | some o => (.ok o, db)

/-- Outcome of the `searchAll` scan: `acc` keeps the matches accumulated
when the iterator ends (normally or with a read error); `fresh` is one of
the early returns that discard the accumulation. -/
inductive SAout where
  | acc (fields : List IndexedField) (e : Option Err)
  | fresh (e : Err)
deriving DecidableEq

/-- The scan of `db.searchAll` over the iterator's UUIDs; `none` is the
panic of `evaluate` (unknown operator). -/
def searchAllLoop (compile : String → Option (String → Bool))
    (field operator : String) (searchF : IndexedField) :
    DBState → List String → Option (SAout × DBState)
  | db, [] => some (.acc [] none, db)
  | db, uuid :: rest =>
    match db.getByUUID uuid with
    | (.error e, db1) => some (.acc [] (some e), db1)
    | (.ok obj, db1) =>
      match alookup db1.schema.objectIndex.uuids obj.uuid with
      | none => some (.fresh .indexCorrupted, db1)
      | some index =>
        match fieldByName obj field with
        | none => some (.fresh (.unknownField field), db1)
        | some v =>
          let test : IndexedField := ⟨v, index⟩
          if test.valueTypeString ≠ searchF.valueTypeString then
            some (.fresh (.casting test.valueTypeString), db1)
          else
            match test.evaluate compile operator searchF with
            | none => none
            | some b =>
              (searchAllLoop compile field operator searchF db1 rest).map
                (fun r =>
                  match r with
                  | (.acc fs e, dbF) =>
                    (.acc (if b then test :: fs else fs) e, dbF)
                  | (.fresh e, dbF) => (.fresh e, dbF))

/-- `db.searchAll`: the linear fall-through scan for non-indexed fields. -/
def DBState.searchAll (compile : String → Option (String → Bool))
    (db : DBState) (o : Obj) (field operator : String) (value : Value)
    (constrain : Option (List IndexedField)) : Option (Search × DBState) :=
  let searchF : IndexedField := ⟨value, 0⟩
  if db.schema.typ ≠ o.typ then
    some (⟨[], some (.schemaNotFound o.typ)⟩, db)
  else
    let uuids :=
      match constrain with
      | some c =>
        c.map (fun cf => (alookup db.schema.objectIndex.objectIds cf.objectId).getD "")
      | none => db.schema.objectIndex.uuids.map Prod.fst
    match searchAllLoop compile field operator searchF db uuids with
    | none => none
    | some (.acc fs e, db1) => some (⟨fs, e⟩, db1)
    | some (.fresh e, db1) => some (⟨[], some e⟩, db1)

/-- `db.search`: schema, search-value transform, indexed probe, fall-through
to the full scan exactly on `FieldNotIndexed`. -/
def DBState.search (compile : String → Option (String → Bool))
    (db : DBState) (o : Obj) (field operator : String) (value : Value)
    (constrain : Option (List IndexedField)) : Option (Search × DBState) :=
  if db.schema.typ ≠ o.typ then
    some (⟨[], some (.schemaNotFound o.typ)⟩, db)
  else
    let value1 := db.schema.prepare field value
    match db.schema.objectIndex.search compile o field operator value1 constrain with
    | none => none
    | some (.error e) =>
      match e with
      | .fieldNotIndexed _ => db.searchAll compile o field operator value1 constrain
      | _ => some (⟨[], some e⟩, db)
    | some (.ok f) => some (⟨f, none⟩, db)

/-- A toy regex engine standing in for Go's external regexp package in
concrete examples: the pattern "[" does not compile (it is also invalid for
Go's engine), any other pattern matches as a prefix. -/
def compileToy : String → Option (String → Bool) :=
  fun p => if p = "[" then none else some (fun s => p.isPrefixOf s)

/-- Constraint set of an indexed unique field (tag `sod:"unique"`). -/
def cCstr : Constraints := ⟨true, true, false, false⟩

/-- Descriptor of a unique int field `A`, as walked from a record type. -/
def cDescA : FieldDescriptor := ⟨"A", "int", cCstr⟩

/-- A record of the registered type `T` with one indexed field `A`. -/
def cObj (u : String) (a : Int) : Obj := ⟨u, "T", [("A", .vint a)], true⟩

/-- A record of type `T` with indexed `A` and non-indexed string `B`. -/
def cObjB (u : String) (b : String) : Obj :=
  ⟨u, "T", [("A", .vint 1), ("B", .vstr b)], true⟩

/-- Field index over `A` holding the single record `u1` with `A = 1`. -/
def wFI1 : FieldIndex :=
  ⟨"A", "int64", cCstr, [⟨.vint 1, 0⟩], [(0, ⟨.vint 1, 0⟩)]⟩

/-- Object index holding `u1` (`A = 1`). -/
def wIdx1 : ObjIndex := ⟨1, [("u1", 0)], [("A", wFI1)], [(0, "u1")]⟩

def wSch1 : Schema := ⟨"T", [cDescA], wIdx1, false, false⟩

/-- Database holding the committed record `u1` with `A = 1`, no caching. -/
def wDb1 : DBState := ⟨wSch1, [], [], [("u1", cObj "u1" 1)], some wSch1⟩

/-- The temporary batch index at the moment `InsertOrUpdateMany` detects the
in-batch uniqueness conflict of `[A=2, A=3, A=2]`. -/
def wTmpE : ObjIndex :=
  ⟨2, [("g2", 0), ("g3", 1)],
    [("A", ⟨"A", "int64", cCstr, [⟨.vint 3, 1⟩, ⟨.vint 2, 0⟩],
      [(0, ⟨.vint 2, 0⟩), (1, ⟨.vint 3, 1⟩)]⟩)],
    [(0, "g2"), (1, "g3")]⟩

def wFI42 : FieldIndex :=
  ⟨"A", "int64", cCstr, [⟨.vint 42, 0⟩], [(0, ⟨.vint 42, 0⟩)]⟩

def wIdx42 : ObjIndex := ⟨1, [("u1", 0)], [("A", wFI42)], [(0, "u1")]⟩

/-- Schema with the write-back cache enabled. -/
def wSch42 : Schema := ⟨"T", [cDescA], wIdx42, true, false⟩

/-- Cache-enabled database holding the record `u1` with unique `A = 42`. -/
def wDb42 : DBState :=
  ⟨wSch42, [("u1", cObj "u1" 42)], [], [("u1", cObj "u1" 42)], some wSch42⟩

/-- `wDb42` right after the failed insert of `u2` (`A = 42` conflicts): the
rejected record sits in the cache. -/
def wDb42c : DBState :=
  ⟨wSch42, [("u1", cObj "u1" 42), ("u2", cObj "u2" 42)], [],
    [("u1", cObj "u1" 42)], some wSch42⟩

/-- Database with a committed record carrying the non-indexed field `B`. -/
def wDbB : DBState :=
  ⟨wSch1, [], [], [("u1", cObjB "u1" "hello")], some wSch1⟩

/-- Descriptor of a unique string field `S`. -/
def cDescS : FieldDescriptor := ⟨"S", "string", cCstr⟩

/-- A record of type `T` with the single string field `S`. -/
def cObjS (u s : String) : Obj := ⟨u, "T", [("S", .vstr s)], true⟩

/-- Field index over `S` holding the record `u1` with `S = "hello"`. -/
def wFIS : FieldIndex :=
  ⟨"S", "string", cCstr, [⟨.vstr "hello", 0⟩], [(0, ⟨.vstr "hello", 0⟩)]⟩

def wIdxS : ObjIndex := ⟨1, [("u1", 0)], [("S", wFIS)], [(0, "u1")]⟩

def wSchS : Schema := ⟨"T", [cDescS], wIdxS, false, false⟩

/-- Database with the indexed string field `S`, no caching. -/
def wDbS : DBState :=
  ⟨wSchS, [], [], [("u1", cObjS "u1" "hello")], some wSchS⟩

/-- No two entries of the sequence share an object id (one id, one live
entry). -/
def IdsNodup (l : List IndexedField) : Prop :=
  (l.map (fun f => f.objectId)).Nodup

instance : DecidablePred IdsNodup := fun _ =>
  List.nodupDecidable _

/-- Well-formedness of one `fieldIndex` at value tag `t`: descending order,
homogeneous values, unique object ids, and coherence of the `objectIds`
reverse map with the ordered sequence.  These are the invariants the
structure maintains (cf. `Control` and the reverse-map updates in
`insert`/`Delete`). -/
def FIWF (t : ValueTy) (fi : FieldIndex) : Prop :=
  SortedDesc fi.index ∧ HomogTy t fi.index ∧ IdsNodup fi.index ∧
  (∀ kv ∈ fi.objectIds, kv.2 ∈ fi.index ∧ kv.2.objectId = kv.1) ∧
  (∀ f ∈ fi.index, alookup fi.objectIds f.objectId = some f) ∧
  (fi.objectIds.map Prod.fst).Nodup

instance (t : ValueTy) : DecidablePred (FIWF t) := fun fi => by
  unfold FIWF
  infer_instance

/-- Well-formedness of an `objIndex` relative to the per-path value typing
`ty`: the UUID↔id maps are mutually inverse with distinct keys and equal
sizes, ids are below the counter, and every field index is well formed, has
one entry per live object, and indexes exactly the live ids. -/
def ObjInv (ty : String → ValueTy) (I : ObjIndex) : Prop :=
  (I.uuids.map Prod.fst).Nodup ∧
  (I.objectIds.map Prod.fst).Nodup ∧
  (∀ kv ∈ I.uuids, alookup I.objectIds kv.2 = some kv.1) ∧
  (∀ kv ∈ I.objectIds, alookup I.uuids kv.2 = some kv.1) ∧
  I.uuids.length = I.objectIds.length ∧
  (∀ kv ∈ I.objectIds, kv.1 < I.i) ∧
  (∀ pfi ∈ I.fields, pfi.2.name = pfi.1 ∧ FIWF (ty pfi.1) pfi.2 ∧
    pfi.2.index.length = I.objectIds.length ∧
    (∀ kv ∈ pfi.2.objectIds, (alookup I.objectIds kv.1).isSome) ∧
    (∀ kv ∈ I.objectIds, (alookup pfi.2.objectIds kv.1).isSome))

instance (ty : String → ValueTy) : DecidablePred (ObjInv ty) := fun I => by
  unfold ObjInv
  infer_instance

/-- The record `o` carries, for every indexed field, a value of that field's
static type (Go guarantees this through static typing: every value of the
registered type has every indexed field, with a fixed type). -/
def WTobj (ty : String → ValueTy) (I : ObjIndex) (o : Obj) : Prop :=
  ∀ pfi ∈ I.fields, (fieldByName o pfi.2.name).map Value.ty = some (ty pfi.1)

instance (ty : String → ValueTy) (I : ObjIndex) :
    DecidablePred (WTobj ty I) := fun o => by
  unfold WTobj
  infer_instance

/-- Object indexes reachable from a fresh index by `insertOrUpdate` (both
outcomes) and `deleteByUUID`, with well-typed records. -/
inductive Reach (ty : String → ValueTy) : ObjIndex → Prop where
  | base (fds : List FieldDescriptor) : Reach ty (newIndex fds)
  | insOk {I I' : ObjIndex} {o : Obj} :
      Reach ty I → WTobj ty I o → I.insertOrUpdate o = .ok I' → Reach ty I'
  | insErr {I I' : ObjIndex} {o : Obj} {e : Err} :
      Reach ty I → WTobj ty I o → I.insertOrUpdate o = .err e I' →
      Reach ty I'
  | del {I I' : ObjIndex} {u : String} :
      Reach ty I → I.deleteByUUID u = some I' → Reach ty I'

-- THEOREMS-BEGIN

theorem Value.equal_iff (a b : Value) : a.equal b = true ↔ a = b := by
  cases a <;> cases b <;> simp [Value.equal]

theorem Value.equal_refl (a : Value) : a.equal a = true := by
  rw [Value.equal_iff]

/-- `a ≥ b` and `b ≥ c` give `a ≥ c` (on values of one common type). -/
theorem Value.ge_trans {a b c : Value} (hab : a.ty = b.ty) (hbc : b.ty = c.ty)
    (h1 : a.less b = false) (h2 : b.less c = false) : a.less c = false := by
  cases a <;> cases b <;> cases c <;>
    simp_all [Value.less, Value.ty] <;> exact le_trans h2 h1

/-- `a ≥ b` and `a < k` give `b < k` (on values of one common type). -/
theorem Value.lt_of_ge_of_lt {a b k : Value} (hab : a.ty = b.ty)
    (h1 : a.less b = false) (h2 : a.less k = true) : b.less k = true := by
  cases a <;> cases b <;> cases k <;>
    simp_all [Value.less, Value.ty] <;> exact lt_of_le_of_lt h1 h2

/-- Two values of one common type neither strictly above the other are equal. -/
theorem Value.eq_of_not_lt_not_gt {a b : Value} (hab : a.ty = b.ty)
    (h1 : a.less b = false) (h2 : b.less a = false) : a = b := by
  cases a <;> cases b <;>
    simp_all [Value.less, Value.ty] <;>
    first
    | exact le_antisymm h2 h1
    | exact String.ext (le_antisymm h2 h1)

theorem Value.less_irrefl (a : Value) : a.less a = false := by
  cases a <;> simp [Value.less]

theorem alookup_mem {K V : Type} [DecidableEq K] {l : List (K × V)} {k : K}
    {v : V} (h : alookup l k = some v) : (k, v) ∈ l := by
  induction l with
  | nil => simp [alookup] at h
  | cons kv t ih =>
    by_cases hk : kv.1 = k
    · simp only [alookup] at h
      rw [if_pos hk] at h
      cases h
      have : kv = (k, kv.2) := by
        rw [← hk]
      rw [← this]
      exact List.mem_cons_self kv t
    · simp only [alookup] at h
      rw [if_neg hk] at h
      exact List.mem_cons_of_mem _ (ih h)

theorem alookup_eq_none {K V : Type} [DecidableEq K] {l : List (K × V)}
    {k : K} : alookup l k = none ↔ k ∉ l.map Prod.fst := by
  induction l with
  | nil => simp [alookup]
  | cons kv t ih =>
    by_cases hk : kv.1 = k
    · simp [alookup, hk]
    · simp [alookup, hk, ih, Ne.symm hk]

theorem aset_of_lookup_none {K V : Type} [DecidableEq K] {l : List (K × V)}
    {k : K} (v : V) (h : alookup l k = none) : aset l k v = l ++ [(k, v)] := by
  induction l with
  | nil => simp [aset]
  | cons kv t ih =>
    simp only [alookup] at h
    by_cases hk : kv.1 = k
    · rw [if_pos hk] at h; cases h
    · rw [if_neg hk] at h
      simp [aset, hk, ih h]

theorem alookup_append_left {K V : Type} [DecidableEq K] {l l2 : List (K × V)}
    {k : K} {v : V} (h : alookup l k = some v) :
    alookup (l ++ l2) k = some v := by
  induction l with
  | nil => simp [alookup] at h
  | cons kv t ih =>
    simp only [alookup] at h ⊢
    by_cases hk : kv.1 = k
    · rwa [if_pos hk] at h ⊢
    · rw [if_neg hk] at h ⊢
      exact ih h

theorem alookup_append_right {K V : Type} [DecidableEq K]
    {l l2 : List (K × V)} {k : K} (h : alookup l k = none) :
    alookup (l ++ l2) k = alookup l2 k := by
  induction l with
  | nil => simp
  | cons kv t ih =>
    simp only [alookup] at h ⊢
    by_cases hk : kv.1 = k
    · rw [if_pos hk] at h; cases h
    · rw [if_neg hk] at h ⊢
      exact ih h

theorem aerase_sublist {K V : Type} [DecidableEq K] (l : List (K × V))
    (k : K) : (aerase l k).Sublist l := by
  induction l with
  | nil => simp [aerase]
  | cons kv t ih =>
    by_cases hk : kv.1 = k
    · simp only [aerase, if_pos hk]
      exact List.sublist_cons_self kv t
    · simp only [aerase, if_neg hk]
      exact List.Sublist.cons₂ kv ih

theorem aerase_of_lookup_none {K V : Type} [DecidableEq K] {l : List (K × V)}
    {k : K} (h : alookup l k = none) : aerase l k = l := by
  induction l with
  | nil => simp [aerase]
  | cons kv t ih =>
    simp only [alookup] at h
    by_cases hk : kv.1 = k
    · rw [if_pos hk] at h; cases h
    · rw [if_neg hk] at h
      simp [aerase, hk, ih h]

theorem aerase_append_right {K V : Type} [DecidableEq K] {l l2 : List (K × V)}
    {k : K} (h : alookup l k = none) :
    aerase (l ++ l2) k = l ++ aerase l2 k := by
  induction l with
  | nil => simp
  | cons kv t ih =>
    simp only [alookup] at h
    by_cases hk : kv.1 = k
    · rw [if_pos hk] at h; cases h
    · rw [if_neg hk] at h
      simp [aerase, hk, ih h]

theorem alookup_aerase_ne {K V : Type} [DecidableEq K] {l : List (K × V)}
    {k k' : K} (h : k' ≠ k) : alookup (aerase l k) k' = alookup l k' := by
  induction l with
  | nil => simp [aerase]
  | cons kv t ih =>
    by_cases hk : kv.1 = k
    · simp only [aerase, if_pos hk, alookup]
      rw [if_neg (by rw [hk]; exact fun hh => h hh.symm)]
    · simp only [aerase, if_neg hk, alookup]
      by_cases hk' : kv.1 = k'
      · rw [if_pos hk', if_pos hk']
      · rw [if_neg hk', if_neg hk']
        exact ih

theorem keys_aerase_sublist {K V : Type} [DecidableEq K] (l : List (K × V))
    (k : K) : ((aerase l k).map Prod.fst).Sublist (l.map Prod.fst) :=
  (aerase_sublist l k).map Prod.fst

theorem alookup_aerase_self {K V : Type} [DecidableEq K] {l : List (K × V)}
    {k : K} (h : (l.map Prod.fst).Nodup) : alookup (aerase l k) k = none := by
  induction l with
  | nil => simp [aerase, alookup]
  | cons kv t ih =>
    simp only [List.map_cons, List.nodup_cons] at h
    by_cases hk : kv.1 = k
    · simp only [aerase, if_pos hk]
      rw [alookup_eq_none]
      rw [← hk]
      exact h.1
    · simp only [aerase, if_neg hk, alookup, if_neg hk]
      exact ih h.2

theorem idxGet_eq_get {l : List IndexedField} {n : Nat} (h : n < l.length) :
    idxGet l n = l.get ⟨n, h⟩ := by
  simp [idxGet, List.getD_eq_getElem?_getD, List.getElem?_eq_getElem h]

theorem idxGet_mem {l : List IndexedField} {n : Nat} (h : n < l.length) :
    idxGet l n ∈ l := by
  rw [idxGet_eq_get h]; exact List.get_mem l n h

theorem sortedDesc_get {l : List IndexedField} (hs : SortedDesc l) {p q : Nat}
    (hpq : p < q) (hq : q < l.length) :
    (idxGet l p).less (idxGet l q) = false := by
  have hp : p < l.length := lt_trans hpq hq
  rw [idxGet_eq_get hp, idxGet_eq_get hq]
  exact List.pairwise_iff_get.mp hs ⟨p, hp⟩ ⟨q, hq⟩ hpq

/-- On a descending run, strictly-below-the-probe propagates rightwards. -/
theorem less_propagate_right {l : List IndexedField} {k : IndexedField}
    {t : ValueTy} (hs : SortedDesc l) (hh : HomogTy t l)
    {a p : Nat} (hap : a ≤ p) (hp : p < l.length)
    (ha : (idxGet l a).less k = true) : (idxGet l p).less k = true := by
  rcases Nat.eq_or_lt_of_le hap with h | h
  · subst h; exact ha
  · have hge := sortedDesc_get hs h hp
    have hta : (idxGet l a).value.ty = (idxGet l p).value.ty := by
      rw [hh _ (idxGet_mem (lt_trans h hp)), hh _ (idxGet_mem hp)]
    exact Value.lt_of_ge_of_lt hta hge ha

/-- On a descending run, at-least-the-probe propagates leftwards. -/
theorem ge_propagate_left {l : List IndexedField} {k : IndexedField}
    {t : ValueTy} (hs : SortedDesc l) (hh : HomogTy t l) (hk : k.value.ty = t)
    {a p : Nat} (hpa : p ≤ a) (ha' : a < l.length)
    (ha : (idxGet l a).less k = false) : (idxGet l p).less k = false := by
  rcases Nat.eq_or_lt_of_le hpa with h | h
  · subst h; exact ha
  · have hge := sortedDesc_get hs h ha'
    have h1 : (idxGet l p).value.ty = (idxGet l a).value.ty := by
      rw [hh _ (idxGet_mem (lt_trans h ha')), hh _ (idxGet_mem ha')]
    have h2 : (idxGet l a).value.ty = k.value.ty := by
      rw [hh _ (idxGet_mem ha'), hk]
    exact Value.ge_trans h1 h2 hge ha

/-- Correctness of the Go binary search `insertionIndexRec` on the live range
`[i, j)`: the result is the first position holding a value strictly below the
probe (with the usual out-of-range behaviour at both ends). -/
theorem insertionIndexRec_spec {l : List IndexedField} {k : IndexedField}
    {t : ValueTy} (hs : SortedDesc l) (hh : HomogTy t l) (hk : k.value.ty = t)
    (hlen : 2 ≤ l.length) :
    ∀ fuel i j, i < j → j ≤ l.length → j - i ≤ fuel →
      (∀ p, p < i → (idxGet l p).less k = false) →
      (∀ p, j ≤ p → p < l.length → (idxGet l p).less k = true) →
      i ≤ insertionIndexRec l k fuel i j ∧
      insertionIndexRec l k fuel i j ≤ j ∧
      (∀ p, p < insertionIndexRec l k fuel i j → (idxGet l p).less k = false) ∧
      (insertionIndexRec l k fuel i j < l.length →
        (idxGet l (insertionIndexRec l k fuel i j)).less k = true) := by
  intro fuel
  induction fuel with
  | zero =>
    intro i j hij _ hfuel _ _
    omega
  | succ fuel ih =>
    intro i j hij hjlen hfuel hA hB
    have hne0 : ¬ l.length = 0 := by omega
    have hne1 : ¬ l.length = 1 := by omega
    by_cases h1 : j - i = 1
    · have hj : j = i + 1 := by omega
      have hilen : i < l.length := by omega
      by_cases hlt : (idxGet l i).less k = true
      · have hr : insertionIndexRec l k (fuel + 1) i j = i := by
          simp [insertionIndexRec, hne0, hne1, h1, hlt]
        rw [hr]
        exact ⟨le_refl i, le_of_lt hij, hA, fun _ => hlt⟩
      · have hr : insertionIndexRec l k (fuel + 1) i j = j := by
          simp [insertionIndexRec, hne0, hne1, h1, hlt]
        rw [hr]
        refine ⟨le_of_lt hij, le_refl j, ?_, fun h => hB j (le_refl j) h⟩
        intro p hp
        rcases Nat.lt_or_ge p i with h | h
        · exact hA p h
        · have : p = i := by omega
          subst this
          simpa using hlt
    · have hd2 : 2 ≤ j - i := by omega
      set pivot := (j + 1 - i) / 2 + i with hpiv
      have hipiv : i < pivot := by omega
      have hpivj : pivot < j := by omega
      have hpivlen : pivot < l.length := by omega
      by_cases hplt : (idxGet l pivot).less k = true
      · have hr : insertionIndexRec l k (fuel + 1) i j =
            insertionIndexRec l k fuel i pivot := by
          simp [insertionIndexRec, hne0, hne1, h1, ← hpiv, hplt]
        rw [hr]
        have hres := ih i pivot hipiv (by omega) (by omega) hA ?_
        · exact ⟨hres.1, le_trans hres.2.1 (le_of_lt hpivj), hres.2.2⟩
        · intro p hp hplen
          exact less_propagate_right hs hh hp hplen hplt
      · have hr : insertionIndexRec l k (fuel + 1) i j =
            insertionIndexRec l k fuel pivot j := by
          simp [insertionIndexRec, hne0, hne1, h1, ← hpiv, hplt]
        rw [hr]
        have hres := ih pivot j hpivj hjlen (by omega) ?_ hB
        · exact ⟨le_trans (le_of_lt hipiv) hres.1, hres.2.1, hres.2.2⟩
        · intro p hp
          exact ge_propagate_left hs hh hk (by omega) hpivlen
            (by simpa using hplt)

/-- Correctness of `InsertionIndex`: it returns the first position whose
value is strictly below the probe (`l.length` when there is none). -/
theorem insertionIndex_spec {l : List IndexedField} {k : IndexedField}
    {t : ValueTy} (hs : SortedDesc l) (hh : HomogTy t l) (hk : k.value.ty = t) :
    InsertionIndex l k ≤ l.length ∧
    (∀ p, p < InsertionIndex l k → (idxGet l p).less k = false) ∧
    (InsertionIndex l k < l.length →
      (idxGet l (InsertionIndex l k)).less k = true) := by
  match l with
  | [] => simp [InsertionIndex, insertionIndexRec]
  | [x] =>
    by_cases hx : (idxGet [x] 0).less k = true
    · simp [InsertionIndex, insertionIndexRec, hx]
    · have hr : InsertionIndex [x] k = 1 := by
        simp [InsertionIndex, insertionIndexRec, hx]
      rw [hr]
      refine ⟨by simp, ?_, by simp⟩
      intro p hp
      have : p = 0 := by omega
      subst this
      simpa using hx
  | x :: y :: ys =>
    have hlen : 2 ≤ (x :: y :: ys).length := by simp
    have h := insertionIndexRec_spec hs hh hk hlen ((x :: y :: ys).length + 1)
      0 (x :: y :: ys).length (by simp) (le_refl _) (by omega)
      (by omega) (by omega)
    exact ⟨h.2.1, h.2.2.1, h.2.2.2⟩

theorem eqScan_le (l : List IndexedField) (k : IndexedField) :
    ∀ n, eqScan l k n ≤ n := by
  intro n
  induction n with
  | zero => simp [eqScan]
  | succ n ih =>
    by_cases h : (idxGet l n).equal k = true
    · simp only [eqScan, h, if_true]
      omega
    · simp [eqScan, h]

theorem eqScan_run (l : List IndexedField) (k : IndexedField) :
    ∀ n p, eqScan l k n ≤ p → p < n → (idxGet l p).equal k = true := by
  intro n
  induction n with
  | zero => omega
  | succ n ih =>
    intro p h1 h2
    by_cases h : (idxGet l n).equal k = true
    · simp only [eqScan, h, if_true] at h1
      rcases Nat.lt_or_ge p n with hp | hp
      · exact ih p h1 hp
      · have : p = n := by omega
        subst this
        exact h
    · simp only [eqScan, if_neg h] at h1
      omega

theorem eqScan_break (l : List IndexedField) (k : IndexedField) :
    ∀ n, 0 < eqScan l k n →
      (idxGet l (eqScan l k n - 1)).equal k = false := by
  intro n
  induction n with
  | zero => simp [eqScan]
  | succ n ih =>
    intro hp
    by_cases h : (idxGet l n).equal k = true
    · simp only [eqScan, h, if_true] at hp ⊢
      exact ih hp
    · simp only [eqScan, if_neg h] at hp ⊢
      simpa using h

/-- An entry equal to the probe sits strictly left of the insertion index. -/
theorem equal_lt_insertionIndex {l : List IndexedField} {k : IndexedField}
    {t : ValueTy} (hs : SortedDesc l) (hh : HomogTy t l) (hk : k.value.ty = t)
    {p : Nat} (hp : p < l.length) (he : (idxGet l p).equal k = true) :
    p < InsertionIndex l k := by
  by_contra hge
  push_neg at hge
  have hsp := insertionIndex_spec hs hh hk
  have hr : InsertionIndex l k < l.length := lt_of_le_of_lt hge hp
  have hlt : (idxGet l p).less k = true :=
    less_propagate_right hs hh hge hp (hsp.2.2 hr)
  have heq : (idxGet l p).value = k.value := (Value.equal_iff _ _).mp he
  rw [IndexedField.less, heq, Value.less_irrefl] at hlt
  cases hlt

/-- The entries equal to the probe are exactly the positions of the run
`[eqScan, InsertionIndex)`. -/
theorem in_run_iff {l : List IndexedField} {k : IndexedField} {t : ValueTy}
    (hs : SortedDesc l) (hh : HomogTy t l) (hk : k.value.ty = t) {p : Nat}
    (hp : p < l.length) :
    (idxGet l p).equal k = true ↔
      eqScan l k (InsertionIndex l k) ≤ p ∧ p < InsertionIndex l k := by
  constructor
  · intro he
    have hpr : p < InsertionIndex l k :=
      equal_lt_insertionIndex hs hh hk hp he
    refine ⟨?_, hpr⟩
    by_contra hlt
    push_neg at hlt
    set m := eqScan l k (InsertionIndex l k) with hm
    have hmpos : 0 < m := by omega
    have hbreak := eqScan_break l k (InsertionIndex l k) hmpos
    have hm1r : m - 1 < InsertionIndex l k := by
      have := eqScan_le l k (InsertionIndex l k)
      omega
    have hm1len : m - 1 < l.length := by
      have := (insertionIndex_spec hs hh hk (l := l)).1
      omega
    -- between p (equal) and the break position everything is still equal
    have hge1 : (idxGet l (m - 1)).less k = false :=
      (insertionIndex_spec hs hh hk).2.1 _ hm1r
    have heqv : (idxGet l p).value = k.value := (Value.equal_iff _ _).mp he
    have hple : p ≤ m - 1 := by omega
    rcases Nat.eq_or_lt_of_le hple with hc | hc
    · rw [hc] at he
      rw [he] at hbreak
      cases hbreak
    have hklt : k.less (idxGet l (m - 1)) = false := by
      have := sortedDesc_get hs hc hm1len
      show Value.less k.value (idxGet l (m-1)).value = false
      rw [← heqv]
      exact this
    have : (idxGet l (m - 1)).value = k.value :=
      Value.eq_of_not_lt_not_gt
        (by rw [hh _ (idxGet_mem hm1len), hk]) hge1 hklt
    rw [IndexedField.equal, this, Value.equal_refl] at hbreak
    cases hbreak
  · intro ⟨h1, h2⟩
    exact eqScan_run l k (InsertionIndex l k) p h1 h2

/-- Both branches of `SearchEqual` produce the contiguous equal run. -/
theorem searchEqual_eq {l : List IndexedField} {k : IndexedField}
    (hr : InsertionIndex l k ≤ l.length) :
    SearchEqual l k =
      (l.drop (eqScan l k (InsertionIndex l k))).take
        (InsertionIndex l k - eqScan l k (InsertionIndex l k)) := by
  have hm : eqScan l k (InsertionIndex l k) ≤ InsertionIndex l k :=
    eqScan_le l k _
  set r := InsertionIndex l k with hrdef
  set m := eqScan l k r with hmdef
  by_cases hij : (m : Int) = (r : Int) - 1
  · have hr1 : r = m + 1 := by omega
    have hlen : 0 < l.length := by omega
    have hmlen : m < l.length := by omega
    rw [SearchEqual]
    simp only [← hrdef, ← hmdef, if_pos hij, if_pos hlen]
    rw [hr1, Nat.add_sub_cancel_left, List.take_one_drop_eq_of_lt_length hmlen,
      idxGet_eq_get hmlen]
  · rw [SearchEqual]
    simp only [← hrdef, ← hmdef, if_neg hij]
    rw [goSlice]
    congr 1
    omega

theorem length_searchEqual {l : List IndexedField} {k : IndexedField}
    (hr : InsertionIndex l k ≤ l.length) :
    (SearchEqual l k).length =
      InsertionIndex l k - eqScan l k (InsertionIndex l k) := by
  rw [searchEqual_eq hr]
  have := eqScan_le l k (InsertionIndex l k)
  simp only [List.length_take, List.length_drop]
  omega

theorem getElem_searchEqual {l : List IndexedField} {k : IndexedField}
    (hr : InsertionIndex l k ≤ l.length) {q : Nat}
    (hq : q < (SearchEqual l k).length) :
    idxGet (SearchEqual l k) q =
      idxGet l (eqScan l k (InsertionIndex l k) + q) := by
  have hlen := length_searchEqual hr
  have hql : eqScan l k (InsertionIndex l k) + q < l.length := by omega
  rw [searchEqual_eq hr] at hq ⊢
  rw [idxGet_eq_get (by omega), idxGet_eq_get hql]
  simp only [List.get_eq_getElem, List.getElem_take, List.getElem_drop]

/-- Membership of the equality probe result: exactly the entries of the
sequence whose value equals the probe's. -/
theorem mem_searchEqual {l : List IndexedField} {k : IndexedField}
    {t : ValueTy} (hs : SortedDesc l) (hh : HomogTy t l)
    (hk : k.value.ty = t) {f : IndexedField} :
    f ∈ SearchEqual l k ↔ f ∈ l ∧ f.equal k = true := by
  have hsp := insertionIndex_spec hs hh hk
  have hm : eqScan l k (InsertionIndex l k) ≤ InsertionIndex l k :=
    eqScan_le l k _
  have h1 := hsp.1
  rw [searchEqual_eq hsp.1]
  constructor
  · intro hf
    obtain ⟨q, hq, hfq⟩ := List.mem_iff_getElem.mp hf
    have hq1 : q < InsertionIndex l k - eqScan l k (InsertionIndex l k) :=
      lt_of_lt_of_le hq (by simp [List.length_take])
    have hmq : eqScan l k (InsertionIndex l k) + q < l.length := by omega
    have hval : l[eqScan l k (InsertionIndex l k) + q] = f := by
      rw [← hfq]
      simp only [List.getElem_take, List.getElem_drop]
    constructor
    · rw [← hval]
      exact List.getElem_mem _
    · have heq : (idxGet l (eqScan l k (InsertionIndex l k) + q)).equal k = true :=
        eqScan_run l k (InsertionIndex l k) _ (by omega) (by omega)
      rwa [idxGet_eq_get hmq, List.get_eq_getElem, hval] at heq
  · intro ⟨hfl, hfe⟩
    obtain ⟨p, hp, hfp⟩ := List.mem_iff_getElem.mp hfl
    have hpe : (idxGet l p).equal k = true := by
      rwa [idxGet_eq_get hp, List.get_eq_getElem, hfp]
    obtain ⟨hrun1, hrun2⟩ := (in_run_iff hs hh hk hp).mp hpe
    rw [List.mem_iff_getElem]
    refine ⟨p - eqScan l k (InsertionIndex l k), ?_, ?_⟩
    · simp only [List.length_take, List.length_drop]
      refine lt_min (by omega) (by omega)
    · simp only [List.getElem_take, List.getElem_drop]
      convert hfp using 2
      omega

theorem Value.less_asymm {a b : Value} (h : a.less b = true) :
    b.less a = false := by
  cases a <;> cases b <;> simp_all [Value.less] <;> exact le_of_lt h

theorem deepEqual_refl (k : IndexedField) : k.deepEqual k = true := by
  simp [IndexedField.deepEqual, IndexedField.equal, Value.equal_refl]

theorem idsNodup_inj {l : List IndexedField} (hn : IdsNodup l) {p q : Nat}
    (hp : p < l.length) (hq : q < l.length)
    (h : (idxGet l p).objectId = (idxGet l q).objectId) : p = q := by
  rw [IdsNodup, List.nodup_iff_injective_get] at hn
  rw [idxGet_eq_get hp, idxGet_eq_get hq] at h
  have h2 : (l.map (fun f => f.objectId)).get ⟨p, by simpa using hp⟩ =
      (l.map (fun f => f.objectId)).get ⟨q, by simpa using hq⟩ := by
    simpa using h
  have h3 := hn h2
  simpa using congrArg Fin.val h3

theorem firstDeepEqualFrom_eq {l : List IndexedField} {k : IndexedField} :
    ∀ steps p q, p ≤ q → q < p + steps →
      (idxGet l q).deepEqual k = true →
      (∀ j, p ≤ j → j < p + steps → j ≠ q →
        (idxGet l j).deepEqual k = false) →
      firstDeepEqualFrom l k steps p = some q := by
  intro steps
  induction steps with
  | zero => omega
  | succ steps ih =>
    intro p q hpq hqs hq hothers
    by_cases hpq0 : p = q
    · subst hpq0
      simp [firstDeepEqualFrom, hq]
    · have hp : (idxGet l p).deepEqual k = false :=
        hothers p (le_refl p) (by omega) hpq0
      rw [firstDeepEqualFrom, if_neg (by simp [hp])]
      refine ih (p + 1) q (by omega) (by omega) hq ?_
      intro j h1 h2 h3
      exact hothers j (by omega) (by omega) h3

/-- `SearchKey` finds exactly the position of a stored entry (unique object
ids make the `deepEqual` hit unique). -/
theorem searchKey_found {l : List IndexedField} {t : ValueTy}
    (hs : SortedDesc l) (hh : HomogTy t l) (hn : IdsNodup l) {q : Nat}
    (hq : q < l.length) : SearchKey l (idxGet l q) = (q, true) := by
  have hk : (idxGet l q).value.ty = t := hh _ (idxGet_mem hq)
  have hsp := insertionIndex_spec hs hh hk
  have heq : (idxGet l q).equal (idxGet l q) = true := by
    simp [IndexedField.equal, Value.equal_refl]
  obtain ⟨hrun1, hrun2⟩ := (in_run_iff hs hh hk hq).mp heq
  have hdeep : ∀ j, j < l.length →
      (idxGet l j).deepEqual (idxGet l q) = true → j = q := by
    intro j hjl hdj
    rw [IndexedField.deepEqual] at hdj
    by_cases hid : (idxGet l j).objectId = (idxGet l q).objectId
    · exact idsNodup_inj hn hjl hq hid
    · rw [if_pos hid] at hdj
      cases hdj
  rw [SearchKey]
  by_cases hij : ((eqScan l (idxGet l q) (InsertionIndex l (idxGet l q)) : Int)
      = (InsertionIndex l (idxGet l q) : Int) - 1)
  · have hqm : q = eqScan l (idxGet l q) (InsertionIndex l (idxGet l q)) := by
      omega
    simp only [if_pos hij]
    rw [← hqm, deepEqual_refl]
  · simp only [if_neg hij]
    rw [firstDeepEqualFrom_eq (InsertionIndex l (idxGet l q) -
        eqScan l (idxGet l q) (InsertionIndex l (idxGet l q))) _ q hrun1
      (by omega) (deepEqual_refl _) ?_]
    · intro j h1 h2 h3
      by_contra hcon
      rw [Bool.not_eq_false] at hcon
      have hjl : j < l.length := by
        have := hsp.1
        omega
      exact h3 (hdeep j hjl hcon)

theorem mem_of_mem_aerase {K V : Type} [DecidableEq K] {l : List (K × V)}
    {k : K} {kv : K × V} (h : kv ∈ aerase l k) : kv ∈ l :=
  (aerase_sublist l k).subset h

theorem mem_aerase_key_ne {K V : Type} [DecidableEq K] {l : List (K × V)}
    {k : K} (hnd : (l.map Prod.fst).Nodup) {kv : K × V}
    (h : kv ∈ aerase l k) : kv.1 ≠ k := by
  induction l with
  | nil => simp [aerase] at h
  | cons kv' t ih =>
    simp only [List.map_cons, List.nodup_cons] at hnd
    by_cases hk : kv'.1 = k
    · rw [aerase, if_pos hk] at h
      intro hcon
      apply hnd.1
      have hmemk : kv.1 ∈ List.map Prod.fst t := List.mem_map_of_mem Prod.fst h
      rwa [hcon, ← hk] at hmemk
    · rw [aerase, if_neg hk] at h
      rcases List.mem_cons.mp h with h1 | h1
      · rw [h1]
        exact hk
      · exact ih hnd.2 h1

theorem length_aerase {K V : Type} [DecidableEq K] {l : List (K × V)}
    {k : K} {v : V} (h : alookup l k = some v) :
    (aerase l k).length + 1 = l.length := by
  induction l with
  | nil => simp [alookup] at h
  | cons kv t ih =>
    by_cases hk : kv.1 = k
    · simp [aerase, hk]
    · rw [alookup, if_neg hk] at h
      simp only [aerase, if_neg hk, List.length_cons]
      rw [← ih h]

theorem getElem_mem_eraseIdx {l : List IndexedField} {p q : Nat}
    (hp : p < l.length) (hq : q < l.length) (hne : p ≠ q) :
    idxGet l p ∈ l.eraseIdx q := by
  rw [List.eraseIdx_eq_take_drop_succ, idxGet_eq_get hp]
  rcases Nat.lt_or_ge p q with h | h
  · apply List.mem_append_left
    rw [List.mem_iff_getElem]
    refine ⟨p, by simp [List.length_take]; omega, ?_⟩
    simp [List.getElem_take]
  · have hgt : q < p := by omega
    apply List.mem_append_right
    rw [List.mem_iff_getElem]
    refine ⟨p - q - 1, by simp [List.length_drop]; omega, ?_⟩
    rw [List.getElem_drop]
    simp only [List.get_eq_getElem]
    congr 1
    omega

theorem not_id_mem_eraseIdx {l : List IndexedField} (hn : IdsNodup l)
    {q : Nat} (hq : q < l.length) {g : IndexedField}
    (hg : g ∈ l.eraseIdx q) : g.objectId ≠ (idxGet l q).objectId := by
  rw [List.eraseIdx_eq_take_drop_succ] at hg
  rcases List.mem_append.mp hg with h | h
  · obtain ⟨p, hp, hpe⟩ := List.mem_iff_getElem.mp h
    have hpl : p < q := by
      have h2 := hp
      simp only [List.length_take] at h2
      exact (lt_min_iff.mp h2).1
    rw [List.getElem_take] at hpe
    intro hcon
    have hplen : p < l.length := by omega
    have hgp : idxGet l p = g := by
      rw [idxGet_eq_get hplen]
      simpa using hpe
    have hideq : (idxGet l p).objectId = (idxGet l q).objectId := by
      rw [hgp]
      exact hcon
    have hpeq := idsNodup_inj hn hplen hq hideq
    omega
  · obtain ⟨p, hp, hpe⟩ := List.mem_iff_getElem.mp h
    have hpl : q + 1 + p < l.length := by
      have := hp
      simp only [List.length_drop] at this
      omega
    rw [List.getElem_drop] at hpe
    intro hcon
    have hgp : idxGet l (q + 1 + p) = g := by
      rw [idxGet_eq_get hpl]
      simpa using hpe
    have hideq : (idxGet l (q + 1 + p)).objectId = (idxGet l q).objectId := by
      rw [hgp]
      exact hcon
    have hpeq := idsNodup_inj hn hpl hq hideq
    omega

/-- `fieldIndex.Delete` on a stored object id: succeeds and removes exactly
that entry from the ordered sequence and the reverse map. -/
theorem delete_ok {t : ValueTy} {fi : FieldIndex} {id : Nat}
    {f : IndexedField} (hwf : FIWF t fi)
    (hlk : alookup fi.objectIds id = some f) :
    ∃ q, q < fi.index.length ∧ idxGet fi.index q = f ∧ f.objectId = id ∧
      fi.Delete id = .ok { fi with index := fi.index.eraseIdx q,
                                   objectIds := aerase fi.objectIds id } := by
  obtain ⟨hs, hh, hn, hsound, hcompl, hknd⟩ := hwf
  obtain ⟨hmem, hoid⟩ := hsound _ (alookup_mem hlk)
  obtain ⟨q, hq, hqe⟩ := List.mem_iff_getElem.mp hmem
  have hqg : idxGet fi.index q = f := by
    rw [idxGet_eq_get hq]
    simpa using hqe
  have hsk : SearchKey fi.index f = (q, true) := by
    rw [← hqg]
    exact searchKey_found hs hh hn hq
  refine ⟨q, hq, hqg, hoid, ?_⟩
  rw [FieldIndex.Delete, hlk]
  simp only [hsk, if_pos]
  by_cases hlen : fi.index.length = 1
  · have hq0 : q = 0 := by omega
    subst hq0
    congr 1
    match hidx : fi.index, hlen with
    | [x], _ => simp
  · rw [if_neg hlen]

/-- `fieldIndex.Delete` on a stored id preserves well-formedness; the
surviving entries are the old ones minus the deleted id. -/
theorem delete_wf {t : ValueTy} {fi : FieldIndex} {id : Nat}
    {f : IndexedField} (hwf : FIWF t fi)
    (hlk : alookup fi.objectIds id = some f) :
    ∃ fi', fi.Delete id = .ok fi' ∧ FIWF t fi' ∧
      fi'.name = fi.name ∧ fi'.cast = fi.cast ∧
      fi'.constraints = fi.constraints ∧
      fi'.index.length + 1 = fi.index.length ∧
      fi'.objectIds = aerase fi.objectIds id ∧
      (∀ g ∈ fi'.index, g ∈ fi.index) ∧
      (∀ g ∈ fi'.index, g.objectId ≠ id) := by
  obtain ⟨q, hq, hqg, hoid, hdel⟩ := delete_ok hwf hlk
  obtain ⟨hs, hh, hn, hsound, hcompl, hknd⟩ := hwf
  have hsub : (fi.index.eraseIdx q).Sublist fi.index := List.eraseIdx_sublist _ q
  have hnotid : ∀ g ∈ fi.index.eraseIdx q, g.objectId ≠ id := by
    intro g hg
    have := not_id_mem_eraseIdx hn hq hg
    rwa [hqg, hoid] at this
  refine ⟨_, hdel, ⟨?_, ?_, ?_, ?_, ?_, ?_⟩, rfl, rfl, rfl, ?_, rfl,
    fun g hg => hsub.subset hg, hnotid⟩
  · exact hs.sublist hsub
  · intro g hg
    exact hh g (hsub.subset hg)
  · exact List.Nodup.sublist (hsub.map _) hn
  · intro kv hkv
    have hkv1 := mem_of_mem_aerase hkv
    have hkne := mem_aerase_key_ne hknd hkv
    obtain ⟨hkvi, hkvo⟩ := hsound kv hkv1
    obtain ⟨p, hp, hpe⟩ := List.mem_iff_getElem.mp hkvi
    have hpg : idxGet fi.index p = kv.2 := by
      rw [idxGet_eq_get hp]
      simpa using hpe
    have hpq : p ≠ q := by
      intro hcon
      subst hcon
      rw [hpg] at hqg
      rw [hqg] at hkvo
      exact hkne (hkvo ▸ hoid ▸ rfl)
    constructor
    · rw [← hpg]
      exact getElem_mem_eraseIdx hp hq hpq
    · exact hkvo
  · intro g hg
    have hgi := hsub.subset hg
    rw [alookup_aerase_ne (hnotid g hg)]
    exact hcompl g hgi
  · exact List.Nodup.sublist (keys_aerase_sublist _ _) hknd
  · have : (fi.index.eraseIdx q).length = fi.index.length - 1 := by
      rw [List.length_eraseIdx]
      simp [hq]
    simp only [this]
    omega

theorem mem_take_pos {l : List IndexedField} {r : Nat} {a : IndexedField}
    (h : a ∈ l.take r) : ∃ p, p < r ∧ p < l.length ∧ idxGet l p = a := by
  obtain ⟨p, hp, hpe⟩ := List.mem_iff_getElem.mp h
  simp only [List.length_take] at hp
  have hp1 := lt_min_iff.mp hp
  refine ⟨p, hp1.1, hp1.2, ?_⟩
  rw [idxGet_eq_get hp1.2]
  rw [List.getElem_take] at hpe
  simpa using hpe

theorem mem_drop_pos {l : List IndexedField} {r : Nat} {b : IndexedField}
    (h : b ∈ l.drop r) : ∃ p, r ≤ p ∧ p < l.length ∧ idxGet l p = b := by
  obtain ⟨p, hp, hpe⟩ := List.mem_iff_getElem.mp h
  simp only [List.length_drop] at hp
  refine ⟨r + p, by omega, by omega, ?_⟩
  rw [idxGet_eq_get (by omega : r + p < l.length)]
  rw [List.getElem_drop] at hpe
  simpa using hpe

theorem initialize_parts (fi : FieldIndex) (k : IndexedField) :
    (fi.Initialize k).index = fi.index ∧
    (fi.Initialize k).objectIds = fi.objectIds ∧
    (fi.Initialize k).name = fi.name ∧
    (fi.Initialize k).constraints = fi.constraints := by
  rw [FieldIndex.Initialize]
  by_cases hc : fi.cast = "" <;> simp [hc]

theorem insert_parts {fi : FieldIndex} {field : IndexedField}
    (hr : InsertionIndex fi.index field ≤ fi.index.length) :
    (fi.insert field).index =
      fi.index.take (InsertionIndex fi.index field) ++
        field :: fi.index.drop (InsertionIndex fi.index field) ∧
    (fi.insert field).objectIds = aset fi.objectIds field.objectId field ∧
    (fi.insert field).name = fi.name ∧ (fi.insert field).cast = fi.cast ∧
    (fi.insert field).constraints = fi.constraints := by
  refine ⟨?_, rfl, rfl, rfl, rfl⟩
  show (if ((InsertionIndex fi.index field : Int) >
        (fi.index.length : Int) - 1) then fi.index ++ [field]
      else fi.index.take (InsertionIndex fi.index field) ++
        field :: fi.index.drop (InsertionIndex fi.index field)) =
    fi.index.take (InsertionIndex fi.index field) ++
      field :: fi.index.drop (InsertionIndex fi.index field)
  by_cases hc : ((InsertionIndex fi.index field : Int) >
      (fi.index.length : Int) - 1)
  · rw [if_pos hc]
    have hlen : InsertionIndex fi.index field = fi.index.length := by omega
    rw [hlen, List.take_length, List.drop_length]
  · rw [if_neg hc]

/-- `fieldIndex.Insert` of a value of the index's type under a fresh object
id: the new entry lands at the insertion index (the right end of its equal
group), the reverse map gains the binding, and well-formedness is kept. -/
theorem insert_spec {t : ValueTy} {fi : FieldIndex} {v : Value} {id : Nat}
    (hwf : FIWF t fi) (hv : v.ty = t)
    (hfresh1 : ∀ g ∈ fi.index, g.objectId ≠ id)
    (hfresh2 : alookup fi.objectIds id = none) :
    (fi.Insert v id).index =
      fi.index.take (InsertionIndex fi.index ⟨v, id⟩) ++
        ⟨v, id⟩ :: fi.index.drop (InsertionIndex fi.index ⟨v, id⟩) ∧
    (fi.Insert v id).objectIds = fi.objectIds ++ [(id, ⟨v, id⟩)] ∧
    (fi.Insert v id).name = fi.name ∧
    (fi.Insert v id).constraints = fi.constraints ∧
    (fi.Insert v id).index.length = fi.index.length + 1 ∧
    FIWF t (fi.Insert v id) := by
  obtain ⟨hs, hh, hn, hsound, hcompl, hknd⟩ := hwf
  have hk : (⟨v, id⟩ : IndexedField).value.ty = t := hv
  have hsp := insertionIndex_spec hs hh hk (l := fi.index)
  obtain ⟨hi1, hi2, hi3, hi4⟩ := initialize_parts fi ⟨v, id⟩
  have hr : InsertionIndex (fi.Initialize ⟨v, id⟩).index ⟨v, id⟩ ≤
      (fi.Initialize ⟨v, id⟩).index.length := by
    rw [hi1]
    exact hsp.1
  obtain ⟨hp1, hp2, hp3, hp4, hp5⟩ := insert_parts hr
  rw [FieldIndex.Insert]
  rw [hi1] at hp1
  rw [hi2] at hp2
  rw [aset_of_lookup_none _ hfresh2] at hp2
  have hidx := hp1
  have hlen : ((fi.Initialize ⟨v, id⟩).insert ⟨v, id⟩).index.length =
      fi.index.length + 1 := by
    rw [hidx]
    simp only [List.length_append, List.length_cons, List.length_take,
      List.length_drop]
    have := hsp.1
    omega
  refine ⟨hp1, hp2, by rw [hp3, hi3], by rw [hp5, hi4], hlen, ?_⟩
  -- well-formedness of the grown index
  have hmem_new : ∀ g, g ∈ ((fi.Initialize ⟨v, id⟩).insert ⟨v, id⟩).index ↔
      (g ∈ fi.index.take (InsertionIndex fi.index ⟨v, id⟩) ∨ g = ⟨v, id⟩ ∨
        g ∈ fi.index.drop (InsertionIndex fi.index ⟨v, id⟩)) := by
    intro g
    rw [hidx]
    simp [List.mem_append, List.mem_cons]
  refine ⟨?_, ?_, ?_, ?_, ?_, ?_⟩
  · -- sorted
    rw [hidx, SortedDesc, List.pairwise_append]
    have hsplit := (List.take_append_drop (InsertionIndex fi.index ⟨v, id⟩)
      fi.index).symm
    have hpw : List.Pairwise (fun a b => a.less b = false)
        (fi.index.take (InsertionIndex fi.index ⟨v, id⟩) ++
          fi.index.drop (InsertionIndex fi.index ⟨v, id⟩)) := by
      rw [← hsplit]
      exact hs
    rw [List.pairwise_append] at hpw
    refine ⟨hpw.1, ?_, ?_⟩
    · rw [List.pairwise_cons]
      refine ⟨?_, hpw.2.1⟩
      intro b hb
      obtain ⟨p, hp1, hp2, hp3⟩ := mem_drop_pos hb
      have hlt : (idxGet fi.index p).less ⟨v, id⟩ = true :=
        less_propagate_right hs hh hp1 hp2 (hsp.2.2 (by omega))
      rw [hp3] at hlt
      show Value.less v b.value = false
      exact Value.less_asymm hlt
    · intro a ha b hb
      rcases List.mem_cons.mp hb with hbf | hbd
      · subst hbf
        obtain ⟨p, hp1, hp2, hp3⟩ := mem_take_pos ha
        have := hsp.2.1 p hp1
        rwa [hp3] at this
      · exact hpw.2.2 a ha b hbd
  · -- homogeneous
    intro g hg
    rcases (hmem_new g).mp hg with h | h | h
    · exact hh g (List.mem_of_mem_take h)
    · rw [h]
      exact hv
    · exact hh g (List.mem_of_mem_drop h)
  · -- ids nodup
    rw [IdsNodup, hidx]
    rw [List.map_append, List.map_cons]
    rw [List.nodup_middle, List.nodup_cons]
    constructor
    · intro hcon
      rcases List.mem_append.mp hcon with h | h
      · obtain ⟨g, hg, hge⟩ := List.mem_map.mp h
        exact hfresh1 g (List.mem_of_mem_take hg) hge
      · obtain ⟨g, hg, hge⟩ := List.mem_map.mp h
        exact hfresh1 g (List.mem_of_mem_drop hg) hge
    · rw [← List.map_append, List.take_append_drop]
      exact hn
  · -- map sound
    intro kv hkv
    rw [hp2] at hkv
    rcases List.mem_append.mp hkv with h | h
    · obtain ⟨hm, ho⟩ := hsound kv h
      refine ⟨?_, ho⟩
      rw [hmem_new]
      rcases List.mem_append.mp ((List.take_append_drop
        (InsertionIndex fi.index ⟨v, id⟩) fi.index).symm ▸ hm) with h2 | h2
      · exact Or.inl h2
      · exact Or.inr (Or.inr h2)
    · have : kv = (id, ⟨v, id⟩) := by simpa using h
      subst this
      refine ⟨?_, rfl⟩
      rw [hmem_new]
      exact Or.inr (Or.inl rfl)
  · -- map complete
    intro g hg
    rw [hp2]
    rcases (hmem_new g).mp hg with h | h | h
    · have hgm : g ∈ fi.index := List.mem_of_mem_take h
      exact alookup_append_left (hcompl g hgm)
    · subst h
      rw [alookup_append_right hfresh2]
      simp [alookup]
    · have hgm : g ∈ fi.index := List.mem_of_mem_drop h
      exact alookup_append_left (hcompl g hgm)
  · -- keys nodup
    rw [hp2, List.map_append]
    rw [List.nodup_append]
    refine ⟨hknd, by simp, ?_⟩
    intro a ha
    simp only [List.map_cons, List.map_nil, List.mem_singleton]
    intro hcon
    subst hcon
    rw [alookup_eq_none] at hfresh2
    simp only [List.mem_map] at ha
    obtain ⟨kv, hkv, hkve⟩ := ha
    apply hfresh2
    rw [← hkve]
    exact List.mem_map_of_mem Prod.fst hkv

/-- `fieldIndex.Update` on a live object id: delete then insert, preserving
well-formedness, the length, and the set of live ids. -/
theorem update_spec {t : ValueTy} {fi : FieldIndex} {v : Value} {i0 : Nat}
    (hwf : FIWF t fi) (hv : v.ty = t)
    (hid : (alookup fi.objectIds i0).isSome) :
    ∃ fi', fi.Update v i0 = some fi' ∧ FIWF t fi' ∧ fi'.name = fi.name ∧
      fi'.constraints = fi.constraints ∧
      fi'.index.length = fi.index.length ∧
      (∀ j, (alookup fi'.objectIds j).isSome ↔
        (alookup fi.objectIds j).isSome) := by
  obtain ⟨f, hf⟩ := Option.isSome_iff_exists.mp hid
  obtain ⟨fi1, hdel, hwf1, hn1, hc1, hcon1, hlen1, hoid1, hsub1, hnotid1⟩ :=
    delete_wf hwf hf
  have hknd := hwf.2.2.2.2.2
  have hfresh2 : alookup fi1.objectIds i0 = none := by
    rw [hoid1]
    exact alookup_aerase_self hknd
  have hfresh1 : ∀ g ∈ fi1.index, g.objectId ≠ i0 := hnotid1
  obtain ⟨hq1, hq2, hq3, hq4, hq5, hq6⟩ := insert_spec hwf1 hv hfresh1 hfresh2
  refine ⟨fi1.Insert v i0, ?_, hq6, by rw [hq3, hn1], by rw [hq4, hcon1],
    by rw [hq5]; omega, ?_⟩
  · rw [FieldIndex.Update, hdel]
  · intro j
    rw [hq2]
    by_cases hj : j = i0
    · subst hj
      rw [alookup_append_right hfresh2]
      simp [alookup, hid]
    · have hne : i0 ≠ j := fun hc => hj hc.symm
      have hao : alookup fi1.objectIds j = alookup fi.objectIds j := by
        rw [hoid1]
        exact alookup_aerase_ne hj
      cases hcase : alookup fi1.objectIds j with
      | some w =>
        rw [alookup_append_left hcase]
        rw [hcase] at hao
        simp [← hao]
      | none =>
        rw [alookup_append_right hcase]
        rw [hcase] at hao
        simp only [alookup, if_neg hne]
        simp [← hao, alookup]

theorem alookup_isSome_of_mem {K V : Type} [DecidableEq K] {l : List (K × V)}
    {kv : K × V} (h : kv ∈ l) : (alookup l kv.1).isSome := by
  induction l with
  | nil => simp at h
  | cons kv' t ih =>
    rcases List.mem_cons.mp h with h1 | h1
    · subst h1
      simp [alookup]
    · rw [alookup]
      by_cases hk : kv'.1 = kv.1
      · simp [hk]
      · rw [if_neg hk]
        exact ih h1

/-- Invariant facts of one `objIndex` fields-map entry, relative to the live
id map `oid` and the uniform index length `L`. -/
def EntryInv (ty : String → ValueTy) (oid : List (Nat × String)) (L : Nat)
    (pfi : String × FieldIndex) : Prop :=
  pfi.2.name = pfi.1 ∧ FIWF (ty pfi.1) pfi.2 ∧ pfi.2.index.length = L ∧
  (∀ kv ∈ pfi.2.objectIds, (alookup oid kv.1).isSome) ∧
  (∀ kv ∈ oid, (alookup pfi.2.objectIds kv.1).isSome)

theorem updateFieldsLoop_ok {ty : String → ValueTy} {o : Obj} {i0 : Nat}
    {L : Nat} {oid : List (Nat × String)}
    (hlive : (alookup oid i0).isSome) :
    ∀ fs : List (String × FieldIndex),
      (∀ pfi ∈ fs, EntryInv ty oid L pfi ∧
        (fieldByName o pfi.2.name).map Value.ty = some (ty pfi.1)) →
      ∃ fs', updateFieldsLoop o i0 fs = .ok fs' ∧
        ∀ pfi ∈ fs', EntryInv ty oid L pfi := by
  intro fs
  induction fs with
  | nil =>
    intro _
    exact ⟨[], rfl, by simp⟩
  | cons pfi rest ih =>
    intro hall
    have hhd := hall pfi (List.mem_cons_self _ _)
    have hih : ∀ q ∈ rest, EntryInv ty oid L q ∧
        (fieldByName o q.2.name).map Value.ty = some (ty q.1) :=
      fun q hq => hall q (List.mem_cons_of_mem _ hq)
    obtain ⟨⟨hname, hwf, hL, hsync1, hsync2⟩, hwte⟩ := hhd
    obtain ⟨v, hv1, hv2⟩ := Option.map_eq_some'.mp hwte
    have hid : (alookup pfi.2.objectIds i0).isSome := by
      obtain ⟨u, hu⟩ := Option.isSome_iff_exists.mp hlive
      exact hsync2 (i0, u) (alookup_mem hu)
    obtain ⟨fi', hupd, hwf', hn', hc', hl', hiff'⟩ := update_spec hwf hv2 hid
    obtain ⟨rest', hrest, hrest'⟩ := ih hih
    refine ⟨(pfi.1, fi') :: rest', ?_, ?_⟩
    · cases pfi with
      | mk fn fi =>
        simp only [updateFieldsLoop, hv1, hupd, hrest]
    · intro q hq
      rcases List.mem_cons.mp hq with h1 | h1
      · subst h1
        refine ⟨by show fi'.name = pfi.1; rw [hn', hname], hwf',
          by show fi'.index.length = L; rw [hl', hL], ?_, ?_⟩
        · intro kv hkv
          have h2 := alookup_isSome_of_mem hkv
          rw [hiff' kv.1] at h2
          obtain ⟨w, hw⟩ := Option.isSome_iff_exists.mp h2
          exact hsync1 (kv.1, w) (alookup_mem hw)
        · intro kv hkv
          rw [hiff' kv.1]
          exact hsync2 kv hkv
      · exact hrest' q h1

theorem insertFieldsLoop_ok {ty : String → ValueTy} {o : Obj} {i : Nat}
    {L : Nat} {oid : List (Nat × String)} (hfresh : alookup oid i = none) :
    ∀ fs : List (String × FieldIndex),
      (∀ pfi ∈ fs, EntryInv ty oid L pfi ∧
        (fieldByName o pfi.2.name).map Value.ty = some (ty pfi.1)) →
      ∃ fs', insertFieldsLoop o i fs = .ok fs' ∧
        ∀ pfi ∈ fs',
          pfi.2.name = pfi.1 ∧ FIWF (ty pfi.1) pfi.2 ∧
          pfi.2.index.length = L + 1 ∧
          (∀ kv ∈ pfi.2.objectIds, kv.1 = i ∨ (alookup oid kv.1).isSome) ∧
          (∀ kv ∈ oid, (alookup pfi.2.objectIds kv.1).isSome) ∧
          (alookup pfi.2.objectIds i).isSome := by
  intro fs
  induction fs with
  | nil =>
    intro _
    exact ⟨[], rfl, by simp⟩
  | cons pfi rest ih =>
    intro hall
    have hhd := hall pfi (List.mem_cons_self _ _)
    have hih : ∀ q ∈ rest, EntryInv ty oid L q ∧
        (fieldByName o q.2.name).map Value.ty = some (ty q.1) :=
      fun q hq => hall q (List.mem_cons_of_mem _ hq)
    obtain ⟨⟨hname, hwf, hL, hsync1, hsync2⟩, hwte⟩ := hhd
    obtain ⟨v, hv1, hv2⟩ := Option.map_eq_some'.mp hwte
    have hfresh2 : alookup pfi.2.objectIds i = none := by
      cases hcase : alookup pfi.2.objectIds i with
      | none => rfl
      | some w =>
        have := hsync1 (i, w) (alookup_mem hcase)
        rw [hfresh] at this
        cases this
    have hfresh1 : ∀ g ∈ pfi.2.index, g.objectId ≠ i := by
      intro g hg hcon
      have h2 := hwf.2.2.2.2.1 g hg
      rw [hcon] at h2
      have := hsync1 (i, g) (alookup_mem h2)
      rw [hfresh] at this
      cases this
    obtain ⟨hq1, hq2, hq3, hq4, hq5, hq6⟩ := insert_spec hwf hv2 hfresh1 hfresh2
    obtain ⟨rest', hrest, hrest'⟩ := ih hih
    refine ⟨(pfi.1, pfi.2.Insert v i) :: rest', ?_, ?_⟩
    · cases pfi with
      | mk fn fi =>
        simp only [insertFieldsLoop, hv1, hrest]
    · intro q hq
      rcases List.mem_cons.mp hq with h1 | h1
      · subst h1
        refine ⟨by show (pfi.2.Insert v i).name = pfi.1; rw [hq3, hname], hq6,
          by show (pfi.2.Insert v i).index.length = L + 1; rw [hq5, hL],
          ?_, ?_, ?_⟩
        · intro kv hkv
          rw [hq2] at hkv
          rcases List.mem_append.mp hkv with h2 | h2
          · exact Or.inr (hsync1 kv h2)
          · left
            have : kv = (i, ⟨v, i⟩) := by simpa using h2
            rw [this]
        · intro kv hkv
          rw [hq2]
          cases hcase : alookup pfi.2.objectIds kv.1 with
          | some w => simp [alookup_append_left hcase]
          | none =>
            have := hsync2 kv hkv
            rw [hcase] at this
            cases this
        · rw [hq2, alookup_append_right hfresh2]
          simp [alookup]
      · exact hrest' q h1

theorem deleteFieldsLoop_ok {ty : String → ValueTy} {i1 : Nat} {L : Nat}
    {oid : List (Nat × String)} (hknd : (oid.map Prod.fst).Nodup)
    (hlive : (alookup oid i1).isSome) :
    ∀ fs : List (String × FieldIndex),
      (∀ pfi ∈ fs, EntryInv ty oid L pfi) →
      ∃ fs', deleteFieldsLoop i1 fs = some fs' ∧
        ∀ pfi ∈ fs', EntryInv ty (aerase oid i1) (L - 1) pfi := by
  intro fs
  induction fs with
  | nil =>
    intro _
    exact ⟨[], rfl, by simp⟩
  | cons pfi rest ih =>
    intro hall
    obtain ⟨hname, hwf, hL, hsync1, hsync2⟩ := hall pfi (List.mem_cons_self _ _)
    have hih : ∀ q ∈ rest, EntryInv ty oid L q :=
      fun q hq => hall q (List.mem_cons_of_mem _ hq)
    have hid : (alookup pfi.2.objectIds i1).isSome := by
      obtain ⟨u, hu⟩ := Option.isSome_iff_exists.mp hlive
      exact hsync2 (i1, u) (alookup_mem hu)
    obtain ⟨f, hf⟩ := Option.isSome_iff_exists.mp hid
    obtain ⟨fi', hdel, hwf', hn', hc', hcon', hl', hoid', hsub', hnotid'⟩ :=
      delete_wf hwf hf
    obtain ⟨rest', hrest, hrest'⟩ := ih hih
    refine ⟨(pfi.1, fi') :: rest', ?_, ?_⟩
    · cases pfi with
      | mk fn fi =>
        rw [deleteFieldsLoop]
        rw [show (fn, fi).2.Delete i1 = DeleteRes.ok fi' from hdel, hrest]
        rfl
    · intro q hq
      rcases List.mem_cons.mp hq with h1 | h1
      · subst h1
        refine ⟨by show fi'.name = pfi.1; rw [hn', hname], hwf',
          by show fi'.index.length = L - 1; omega, ?_, ?_⟩
        · intro kv hkv
          rw [hoid'] at hkv
          have hkne := mem_aerase_key_ne hwf.2.2.2.2.2 hkv
          have hmem := mem_of_mem_aerase hkv
          rw [alookup_aerase_ne hkne]
          exact hsync1 kv hmem
        · intro kv hkv
          have hkne := mem_aerase_key_ne hknd hkv
          have hmem := mem_of_mem_aerase hkv
          rw [hoid', alookup_aerase_ne hkne]
          exact hsync2 kv hmem
      · exact hrest' q h1

theorem objInv_entries {ty : String → ValueTy} {I : ObjIndex}
    (hinv : ObjInv ty I) :
    ∀ pfi ∈ I.fields, EntryInv ty I.objectIds I.objectIds.length pfi := by
  intro pfi hpfi
  obtain ⟨h1, h2, h3, h4, h5⟩ := hinv.2.2.2.2.2.2 pfi hpfi
  exact ⟨h1, h2, h3, h4, h5⟩

/-- `objIndex.insertOrUpdate` on a well-typed record: success preserves the
index invariant, and an error (a constraint violation) leaves the index
exactly as it was. -/
theorem insertOrUpdate_inv {ty : String → ValueTy} {I : ObjIndex} {o : Obj}
    (hinv : ObjInv ty I) (hwt : WTobj ty I o) :
    (∀ I', I.insertOrUpdate o = .ok I' → ObjInv ty I') ∧
    (∀ e I', I.insertOrUpdate o = .err e I' → I' = I) := by
  have hall : ∀ pfi ∈ I.fields, EntryInv ty I.objectIds I.objectIds.length pfi ∧
      (fieldByName o pfi.2.name).map Value.ty = some (ty pfi.1) :=
    fun pfi hpfi => ⟨objInv_entries hinv pfi hpfi, hwt pfi hpfi⟩
  cases hsat : I.satisfyAll o with
  | some e =>
    constructor
    · intro I' h
      simp only [ObjIndex.insertOrUpdate, hsat] at h
      cases h
    · intro e' I' h
      simp only [ObjIndex.insertOrUpdate, hsat] at h
      cases h
      rfl
  | none =>
    cases huu : alookup I.uuids o.uuid with
    | some i0 =>
      have hlive : (alookup I.objectIds i0).isSome := by
        rw [hinv.2.2.1 (o.uuid, i0) (alookup_mem huu)]
        rfl
      obtain ⟨fs', hloop, hfs'⟩ := updateFieldsLoop_ok hlive I.fields hall
      constructor
      · intro I' h
        simp only [ObjIndex.insertOrUpdate, hsat, huu, hloop] at h
        cases h
        obtain ⟨c1, c2, c3, c4, c5, c6, _⟩ := hinv
        exact ⟨c1, c2, c3, c4, c5, c6, fun pfi hpfi => hfs' pfi hpfi⟩
      · intro e I' h
        simp only [ObjIndex.insertOrUpdate, hsat, huu, hloop] at h
        cases h
    | none =>
      have hfresh : alookup I.objectIds I.i = none := by
        cases hcase : alookup I.objectIds I.i with
        | none => rfl
        | some u =>
          have := hinv.2.2.2.2.2.1 (I.i, u) (alookup_mem hcase)
          omega
      obtain ⟨fs', hloop, hfs'⟩ := insertFieldsLoop_ok hfresh I.fields hall
      have hasetO : aset I.objectIds I.i o.uuid =
          I.objectIds ++ [(I.i, o.uuid)] := aset_of_lookup_none _ hfresh
      have hasetU : aset I.uuids o.uuid I.i = I.uuids ++ [(o.uuid, I.i)] :=
        aset_of_lookup_none _ huu
      constructor
      · intro I' h
        simp only [ObjIndex.insertOrUpdate, hsat, huu, hloop] at h
        cases h
        obtain ⟨c1, c2, c3, c4, c5, c6, _⟩ := hinv
        refine ⟨?_, ?_, ?_, ?_, ?_, ?_, ?_⟩
        · show ((aset I.uuids o.uuid I.i).map Prod.fst).Nodup
          rw [hasetU, List.map_append, List.nodup_append]
          refine ⟨c1, by simp, ?_⟩
          intro a ha
          simp only [List.map_cons, List.map_nil, List.mem_singleton]
          intro hcon
          subst hcon
          rw [alookup_eq_none] at huu
          exact huu ha
        · show ((aset I.objectIds I.i o.uuid).map Prod.fst).Nodup
          rw [hasetO, List.map_append, List.nodup_append]
          refine ⟨c2, by simp, ?_⟩
          intro a ha
          simp only [List.map_cons, List.map_nil, List.mem_singleton]
          intro hcon
          subst hcon
          rw [alookup_eq_none] at hfresh
          exact hfresh ha
        · intro kv hkv
          show alookup (aset I.objectIds I.i o.uuid) kv.2 = some kv.1
          rw [hasetU] at hkv
          rw [hasetO]
          rcases List.mem_append.mp hkv with h1 | h1
          · exact alookup_append_left (c3 kv h1)
          · have : kv = (o.uuid, I.i) := by simpa using h1
            subst this
            rw [alookup_append_right hfresh]
            simp [alookup]
        · intro kv hkv
          show alookup (aset I.uuids o.uuid I.i) kv.2 = some kv.1
          rw [hasetO] at hkv
          rw [hasetU]
          rcases List.mem_append.mp hkv with h1 | h1
          · exact alookup_append_left (c4 kv h1)
          · have : kv = (I.i, o.uuid) := by simpa using h1
            subst this
            rw [alookup_append_right huu]
            simp [alookup]
        · show (aset I.uuids o.uuid I.i).length =
            (aset I.objectIds I.i o.uuid).length
          rw [hasetO, hasetU]
          simp only [List.length_append, List.length_cons, List.length_nil]
          omega
        · intro kv hkv
          show kv.1 < I.i + 1
          rw [hasetO] at hkv
          rcases List.mem_append.mp hkv with h1 | h1
          · have := c6 kv h1
            omega
          · have : kv = (I.i, o.uuid) := by simpa using h1
            subst this
            omega
        · intro pfi hpfi
          obtain ⟨e1, e2, e3, e4, e5, e6⟩ := hfs' pfi hpfi
          have hlenO : (aset I.objectIds I.i o.uuid).length =
              I.objectIds.length + 1 := by
            rw [hasetO]
            simp
          refine ⟨e1, e2, by rw [e3, hlenO], ?_, ?_⟩
          · intro kv hkv
            rcases e4 kv hkv with h1 | h1
            · rw [hasetO, h1, alookup_append_right hfresh]
              simp [alookup]
            · obtain ⟨w, hw⟩ := Option.isSome_iff_exists.mp h1
              rw [hasetO, alookup_append_left hw]
              rfl
          · intro kv hkv
            rw [hasetO] at hkv
            rcases List.mem_append.mp hkv with h1 | h1
            · exact e5 kv h1
            · have : kv = (I.i, o.uuid) := by simpa using h1
              subst this
              exact e6
      · intro e I' h
        simp only [ObjIndex.insertOrUpdate, hsat, huu, hloop] at h
        cases h

/-- `objIndex.deleteByUUID` never panics on a well-formed index and
preserves the invariant. -/
theorem deleteByUUID_inv {ty : String → ValueTy} {I : ObjIndex}
    (hinv : ObjInv ty I) (u : String) :
    ∃ I', I.deleteByUUID u = some I' ∧ ObjInv ty I' := by
  cases huu : alookup I.uuids u with
  | none =>
    refine ⟨I, ?_, hinv⟩
    rw [ObjIndex.deleteByUUID, huu]
  | some i1 =>
    obtain ⟨c1, c2, c3, c4, c5, c6, c7⟩ := hinv
    have hmemu : (u, i1) ∈ I.uuids := alookup_mem huu
    have hoi : alookup I.objectIds i1 = some u := c3 (u, i1) hmemu
    have hlive : (alookup I.objectIds i1).isSome := by
      rw [hoi]
      rfl
    obtain ⟨fs', hloop, hfs'⟩ :=
      deleteFieldsLoop_ok c2 hlive I.fields (objInv_entries ⟨c1, c2, c3, c4, c5, c6, c7⟩)
    refine ⟨⟨I.i, aerase I.uuids u, fs', aerase I.objectIds i1⟩, ?_, ?_⟩
    · simp only [ObjIndex.deleteByUUID, huu, hloop, Option.map_some']
    · refine ⟨?_, ?_, ?_, ?_, ?_, ?_, ?_⟩
      · exact List.Nodup.sublist (keys_aerase_sublist _ _) c1
      · exact List.Nodup.sublist (keys_aerase_sublist _ _) c2
      · intro kv hkv
        have hkne := mem_aerase_key_ne c1 hkv
        have hmem := mem_of_mem_aerase hkv
        have h1 := c3 kv hmem
        have hkv2 : kv.2 ≠ i1 := by
          intro hcon
          rw [hcon, hoi] at h1
          cases h1
          exact hkne rfl
        show alookup (aerase I.objectIds i1) kv.2 = some kv.1
        rw [alookup_aerase_ne hkv2]
        exact h1
      · intro kv hkv
        have hkne := mem_aerase_key_ne c2 hkv
        have hmem := mem_of_mem_aerase hkv
        have h1 := c4 kv hmem
        have hkv2 : kv.2 ≠ u := by
          intro hcon
          rw [hcon, huu] at h1
          cases h1
          exact hkne rfl
        show alookup (aerase I.uuids u) kv.2 = some kv.1
        rw [alookup_aerase_ne hkv2]
        exact h1
      · show (aerase I.uuids u).length = (aerase I.objectIds i1).length
        have l1 := length_aerase huu
        have l2 := length_aerase hoi
        omega
      · intro kv hkv
        exact c6 kv (mem_of_mem_aerase hkv)
      · intro pfi hpfi
        obtain ⟨e1, e2, e3, e4, e5⟩ := hfs' pfi hpfi
        have l2 := length_aerase hoi
        refine ⟨e1, e2, ?_, e4, e5⟩
        show pfi.2.index.length = (aerase I.objectIds i1).length
        rw [e3]
        omega

theorem objInv_newIndex (ty : String → ValueTy) (fds : List FieldDescriptor) :
    ObjInv ty (newIndex fds) := by
  refine ⟨by simp [newIndex], by simp [newIndex], by simp [newIndex],
    by simp [newIndex], by simp [newIndex], by simp [newIndex], ?_⟩
  intro pfi hpfi
  simp only [newIndex, List.mem_map] at hpfi
  obtain ⟨fd, _, hfd⟩ := hpfi
  subst hfd
  refine ⟨rfl, ?_, by simp [newIndex, newFieldIndex],
    by simp [newFieldIndex], by simp [newIndex]⟩
  refine ⟨?_, ?_, ?_, ?_, ?_, ?_⟩ <;> simp [newFieldIndex, SortedDesc,
    HomogTy, IdsNodup]

/-- Every reachable object index satisfies the invariant. -/
theorem objInv_of_reach {ty : String → ValueTy} {I : ObjIndex}
    (h : Reach ty I) : ObjInv ty I := by
  induction h with
  | base fds => exact objInv_newIndex ty fds
  | insOk hr hwt hop ih => exact (insertOrUpdate_inv ih hwt).1 _ hop
  | insErr hr hwt hop ih =>
    have := (insertOrUpdate_inv ih hwt).2 _ _ hop
    rwa [this]
  | del hr hop ih =>
    obtain ⟨I', hI', hinv'⟩ := deleteByUUID_inv ih _
    rw [hI'] at hop
    cases hop
    exact hinv'

theorem alookup_aset_isSome {K V : Type} [DecidableEq K] {l : List (K × V)}
    {k j : K} {v : V} :
    (alookup (aset l k v) j).isSome = true ↔
      (j = k ∨ (alookup l j).isSome = true) := by
  induction l with
  | nil =>
    by_cases hj : j = k
    · subst hj
      simp [aset, alookup]
    · have hne : ¬ k = j := fun h => hj h.symm
      simp [aset, alookup, hne, hj]
  | cons kv t ih =>
    by_cases hk : kv.1 = k
    · by_cases hj : j = k
      · subst hj
        simp [aset, hk, alookup]
      · have hne : ¬ k = j := fun h => hj h.symm
        rw [aset, if_pos hk, alookup, if_neg hne]
        simp only [hj, false_or]
        rw [alookup, hk, if_neg hne]
    · by_cases hj : kv.1 = j
      · have hjk : ¬ j = k := fun h => hk (hj.trans h)
        rw [aset, if_neg hk, alookup, if_pos hj]
        simp only [Option.isSome_some, true_iff]
        right
        rw [alookup, if_pos hj]
        rfl
      · rw [aset, if_neg hk, alookup, if_neg hj, alookup, if_neg hj]
        exact ih

/-- The mark map built by `Search.Or` contains exactly the fresh ids (plus
whatever was already marked). -/
theorem marked_isSome {fs : List IndexedField} :
    ∀ m0 : List (Nat × Bool), ∀ j,
      (alookup (fs.foldl (fun m f => aset m f.objectId true) m0) j).isSome =
        true ↔
      ((alookup m0 j).isSome = true ∨ ∃ g ∈ fs, g.objectId = j) := by
  induction fs with
  | nil => simp
  | cons f rest ih =>
    intro m0 j
    rw [List.foldl_cons, ih]
    rw [alookup_aset_isSome]
    constructor
    · intro h
      rcases h with (h | h) | h
      · right
        exact ⟨f, List.mem_cons_self _ _, h.symm⟩
      · left
        exact h
      · obtain ⟨g, hg, hge⟩ := h
        right
        exact ⟨g, List.mem_cons_of_mem _ hg, hge⟩
    · intro h
      rcases h with h | ⟨g, hg, hge⟩
      · left
        right
        exact h
      · rcases List.mem_cons.mp hg with h1 | h1
        · subst h1
          left
          left
          exact hge.symm
        · right
          exact ⟨g, h1, hge⟩

theorem orMerge_foldl {marked : List (Nat × Bool)} :
    ∀ (l acc : List IndexedField),
      l.foldl
        (fun acc f =>
          if (alookup marked f.objectId).isSome then acc else acc ++ [f])
        acc =
      acc ++ l.filter (fun f => !(alookup marked f.objectId).isSome) := by
  intro l
  induction l with
  | nil => simp
  | cons f rest ih =>
    intro acc
    rw [List.foldl_cons]
    by_cases h : (alookup marked f.objectId).isSome = true
    · rw [if_pos h, ih acc, List.filter_cons]
      simp [h]
    · rw [if_neg h, ih, List.filter_cons]
      simp only [h, Bool.not_false, if_pos]
      rw [List.append_cons]
      simp [h]

/-- The merged field list of `Search.Or`, written against the mark set. -/
theorem or_fields_eq {s fresh : Search} (hs : s.error = none) :
    (s.Or fresh).fields = fresh.fields ++
      s.fields.filter
        (fun f =>
          !(alookup
              (fresh.fields.foldl (fun m g => aset m g.objectId true)
                ([] : List (Nat × Bool)))
              f.objectId).isSome) := by
  rw [Search.Or, hs]
  simp only [Option.isSome_none, Bool.false_eq_true, if_false]
  exact orMerge_foldl s.fields fresh.fields

theorem eraseIdx_insert {α : Type} (l1 l2 : List α) (a : α) :
    (l1 ++ a :: l2).eraseIdx l1.length = l1 ++ l2 := by
  induction l1 with
  | nil => simp
  | cons x t ih =>
    simp only [List.cons_append, List.length_cons, List.eraseIdx_cons_succ,
      ih]

/-- C3: on a sorted homogeneous field index the insertion index `i`
satisfies `index[p] ≥ k` for every `p < i` and `k > index[i]` when `i` is
in range — so `index[i-1] ≥ k > index[i]`, not the claimed
`index[i-1] > k ≥ index[i]` — every entry equal to the probe lies strictly
left of `i`, and `insert` therefore places a new equal element at the
rightmost position of its equal group, not the leftmost. -/
theorem c3_insertion_rightmost {t : ValueTy} {fi : FieldIndex}
    {k : IndexedField} (hs : SortedDesc fi.index) (hh : HomogTy t fi.index)
    (hk : k.value.ty = t) :
    InsertionIndex fi.index k ≤ fi.index.length ∧
    (∀ p, p < InsertionIndex fi.index k →
      (idxGet fi.index p).less k = false) ∧
    (InsertionIndex fi.index k < fi.index.length →
      (idxGet fi.index (InsertionIndex fi.index k)).less k = true) ∧
    (∀ p, p < fi.index.length → (idxGet fi.index p).equal k = true →
      p < InsertionIndex fi.index k) ∧
    (fi.insert k).index =
      fi.index.take (InsertionIndex fi.index k) ++
        k :: fi.index.drop (InsertionIndex fi.index k) := by
  have hsp := insertionIndex_spec hs hh hk
  refine ⟨hsp.1, hsp.2.1, hsp.2.2, ?_, (insert_parts hsp.1).1⟩
  intro p hp he
  exact equal_lt_insertionIndex hs hh hk hp he

theorem c3_witness :
    SortedDesc wFI1.index ∧ HomogTy ValueTy.i64 wFI1.index ∧
    (⟨Value.vint 1, 5⟩ : IndexedField).value.ty = ValueTy.i64 ∧
    (InsertionIndex wFI1.index ⟨Value.vint 1, 5⟩ ≤ wFI1.index.length ∧
     (∀ p, p < InsertionIndex wFI1.index ⟨Value.vint 1, 5⟩ →
       (idxGet wFI1.index p).less ⟨Value.vint 1, 5⟩ = false) ∧
     (InsertionIndex wFI1.index ⟨Value.vint 1, 5⟩ < wFI1.index.length →
       (idxGet wFI1.index
         (InsertionIndex wFI1.index ⟨Value.vint 1, 5⟩)).less
           ⟨Value.vint 1, 5⟩ = true) ∧
     (∀ p, p < wFI1.index.length →
       (idxGet wFI1.index p).equal ⟨Value.vint 1, 5⟩ = true →
       p < InsertionIndex wFI1.index ⟨Value.vint 1, 5⟩) ∧
     (wFI1.insert ⟨Value.vint 1, 5⟩).index =
       wFI1.index.take (InsertionIndex wFI1.index ⟨Value.vint 1, 5⟩) ++
         ⟨Value.vint 1, 5⟩ ::
           wFI1.index.drop (InsertionIndex wFI1.index ⟨Value.vint 1, 5⟩)) := by
  have h1 : SortedDesc wFI1.index := by decide
  have h2 : HomogTy ValueTy.i64 wFI1.index := by decide
  have h3 : (⟨Value.vint 1, 5⟩ : IndexedField).value.ty = ValueTy.i64 := by
    decide
  exact ⟨h1, h2, h3, c3_insertion_rightmost h1 h2 h3⟩

/-- C3 counterexample to the spec as written: on the sorted index `[(4,1)]`
with probe `(4,2)`, `InsertionIndex` returns `1`, where the claimed
`index[i-1] > k` fails (`4 > 4` is false; the actual relation is
`index[i-1] ≥ k`), and `insert` appends the new equal element after its
peer — the rightmost slot of the equal group, not the leftmost. -/
theorem c3_counterexample :
    SortedDesc [(⟨Value.vint 4, 1⟩ : IndexedField)] ∧
    InsertionIndex [⟨Value.vint 4, 1⟩] ⟨Value.vint 4, 2⟩ = 1 ∧
    (idxGet [⟨Value.vint 4, 1⟩] 0).greater ⟨Value.vint 4, 2⟩ = false ∧
    ((⟨"A", "int64", cCstr, [⟨Value.vint 4, 1⟩], [(1, ⟨Value.vint 4, 1⟩)]⟩ :
        FieldIndex).insert ⟨Value.vint 4, 2⟩).index =
      [⟨Value.vint 4, 1⟩, ⟨Value.vint 4, 2⟩] := by
  decide

/-- C4: every object index reachable from a fresh index by any sequence of
`insertOrUpdate` (either outcome) and `deleteByUUID` on well-typed records
keeps `uuids` and `ObjectIds` mutually inverse maps with distinct keys and
equal lengths, and every field index holds exactly one entry per live
object. -/
theorem c4_objindex_bijection {ty : String → ValueTy} {I : ObjIndex}
    (h : Reach ty I) :
    I.uuids.length = I.objectIds.length ∧
    (I.uuids.map Prod.fst).Nodup ∧ (I.objectIds.map Prod.fst).Nodup ∧
    (∀ kv ∈ I.uuids, alookup I.objectIds kv.2 = some kv.1) ∧
    (∀ kv ∈ I.objectIds, alookup I.uuids kv.2 = some kv.1) ∧
    (∀ pfi ∈ I.fields, pfi.2.index.length = I.objectIds.length) := by
  obtain ⟨c1, c2, c3, c4, c5, c6, c7⟩ := objInv_of_reach h
  exact ⟨c5, c1, c2, c3, c4, fun pfi hpfi => (c7 pfi hpfi).2.2.1⟩

theorem c4_witness :
    Reach (fun _ => ValueTy.i64) wIdx1 ∧
    (wIdx1.uuids.length = wIdx1.objectIds.length ∧
     (wIdx1.uuids.map Prod.fst).Nodup ∧
     (wIdx1.objectIds.map Prod.fst).Nodup ∧
     (∀ kv ∈ wIdx1.uuids, alookup wIdx1.objectIds kv.2 = some kv.1) ∧
     (∀ kv ∈ wIdx1.objectIds, alookup wIdx1.uuids kv.2 = some kv.1) ∧
     (∀ pfi ∈ wIdx1.fields,
       pfi.2.index.length = wIdx1.objectIds.length)) := by
  have hwt : WTobj (fun _ => ValueTy.i64) (newIndex [cDescA])
      (cObj "u1" 1) := by decide
  have hok : (newIndex [cDescA]).insertOrUpdate (cObj "u1" 1) =
      .ok wIdx1 := by decide
  have hreach : Reach (fun _ => ValueTy.i64) wIdx1 :=
    Reach.insOk (Reach.base [cDescA]) hwt hok
  exact ⟨hreach, c4_objindex_bijection hreach⟩

/-- C10: `fieldIndex.Delete` panics (`object id not found`) rather than
returning an error when the object id has no entry in the reverse map, and
through `objIndex.deleteByUUID` on a well-formed object index neither panic
branch is ever reached: the delete always completes. -/
theorem c10_delete_panic_unreachable {ty : String → ValueTy} {I : ObjIndex}
    (hinv : ObjInv ty I) (u : String) :
    (∀ (fi : FieldIndex) (objid : Nat),
      alookup fi.objectIds objid = none →
      fi.Delete objid = .panicObjectIdNotFound) ∧
    ∃ I2, I.deleteByUUID u = some I2 := by
  constructor
  · intro fi objid h
    rw [FieldIndex.Delete, h]
  · obtain ⟨I2, hI2, _⟩ := deleteByUUID_inv hinv u
    exact ⟨I2, hI2⟩

theorem c10_witness :
    ObjInv (fun _ => ValueTy.i64) wIdx1 ∧
    ((∀ (fi : FieldIndex) (objid : Nat),
       alookup fi.objectIds objid = none →
       fi.Delete objid = .panicObjectIdNotFound) ∧
     ∃ I2, wIdx1.deleteByUUID "u1" = some I2) := by
  have hinv : ObjInv (fun _ => ValueTy.i64) wIdx1 := by decide
  exact ⟨hinv, c10_delete_panic_unreachable hinv "u1"⟩

/-- C5: under the unique constraint, `Satisfy` flags `FieldUnique` exactly
when some stored entry is value-equal to the probe and either the candidate
object is new (`exist = false`) or that entry's object id differs from the
candidate's; any other outcome is no error — in particular re-inserting an
existing object with its stored unique value succeeds. -/
theorem c5_satisfy_iff {t : ValueTy} {fi : FieldIndex} {k : IndexedField}
    {objid : Nat} {exist : Bool} (hu : fi.constraints.unique = true)
    (hwf : FIWF t fi) (hk : k.value.ty = t) :
    (fi.Satisfy objid exist k = some .fieldUnique ↔
      ∃ f ∈ fi.index, f.equal k = true ∧
        (exist = false ∨ f.objectId ≠ objid)) ∧
    (fi.Satisfy objid exist k = some .fieldUnique ∨
      fi.Satisfy objid exist k = none) := by
  obtain ⟨hs, hh, hn, _, _, _⟩ := hwf
  have hsp := insertionIndex_spec hs hh hk (l := fi.index)
  have hmm : ∀ f, f ∈ SearchEqual fi.index k ↔
      f ∈ fi.index ∧ f.equal k = true := fun f => mem_searchEqual hs hh hk
  have hbody : fi.Satisfy objid exist k =
      (if (SearchEqual fi.index k).length > 1 then some .fieldUnique
       else if (SearchEqual fi.index k).length = 1 then
         if !exist || (idxGet (SearchEqual fi.index k) 0).objectId ≠ objid
         then some .fieldUnique else none
       else none) := by
    unfold FieldIndex.Satisfy
    rw [if_pos hu]
  cases hlen : (SearchEqual fi.index k).length with
  | zero =>
    have hnone : fi.Satisfy objid exist k = none := by
      rw [hbody, if_neg (by omega), if_neg (by omega)]
    rw [hnone]
    refine ⟨⟨fun hcon => Option.noConfusion hcon, ?_⟩, Or.inr rfl⟩
    intro ⟨f, hfm, hfe, _⟩
    have : f ∈ SearchEqual fi.index k := (hmm f).mpr ⟨hfm, hfe⟩
    rw [List.eq_nil_of_length_eq_zero hlen] at this
    cases this
  | succ n =>
    cases n with
    | zero =>
      have h0 : 0 < (SearchEqual fi.index k).length := by omega
      have hf0m : idxGet (SearchEqual fi.index k) 0 ∈
          SearchEqual fi.index k := idxGet_mem h0
      obtain ⟨hf0i, hf0e⟩ := (hmm _).mp hf0m
      have huniq : ∀ f ∈ fi.index, f.equal k = true →
          f = idxGet (SearchEqual fi.index k) 0 := by
        intro f hfm hfe
        have hfs : f ∈ SearchEqual fi.index k := (hmm f).mpr ⟨hfm, hfe⟩
        obtain ⟨a, ha⟩ := List.length_eq_one.mp hlen
        rw [ha] at hfs
        rw [ha, idxGet]
        simp only [List.mem_singleton] at hfs
        rw [hfs]
        rfl
      by_cases hc : (!exist ||
          decide ((idxGet (SearchEqual fi.index k) 0).objectId ≠ objid)) = true
      · have hsome : fi.Satisfy objid exist k = some .fieldUnique := by
          rw [hbody, if_neg (by omega), if_pos (by omega), if_pos hc]
        rw [hsome]
        simp only [Bool.or_eq_true, Bool.not_eq_true', decide_eq_true_eq]
          at hc
        exact ⟨⟨fun _ => ⟨_, hf0i, hf0e, hc⟩, fun _ => rfl⟩, Or.inl rfl⟩
      · have hnone : fi.Satisfy objid exist k = none := by
          rw [hbody, if_neg (by omega), if_pos (by omega), if_neg hc]
        rw [hnone]
        simp only [Bool.or_eq_true, Bool.not_eq_true', decide_eq_true_eq,
          not_or, not_not] at hc
        refine ⟨⟨fun hcon => Option.noConfusion hcon, ?_⟩, Or.inr rfl⟩
        intro ⟨f, hfm, hfe, hor⟩
        have hfeq := huniq f hfm hfe
        rcases hor with h1 | h1
        · rw [h1] at hc
          exact (hc.1 rfl).elim
        · rw [hfeq] at h1
          exact (h1 hc.2).elim
    | succ m =>
      have hsome : fi.Satisfy objid exist k = some .fieldUnique := by
        rw [hbody, if_pos (by omega)]
      rw [hsome]
      have h0 : 0 < (SearchEqual fi.index k).length := by omega
      have h1 : 1 < (SearchEqual fi.index k).length := by omega
      have hg0 := getElem_searchEqual hsp.1 (q := 0) h0
      have hg1 := getElem_searchEqual hsp.1 (q := 1) h1
      have hlsum := length_searchEqual (k := k) hsp.1
      have hp0 : eqScan fi.index k (InsertionIndex fi.index k) + 0 <
          fi.index.length := by omega
      have hp1 : eqScan fi.index k (InsertionIndex fi.index k) + 1 <
          fi.index.length := by omega
      have hne : (idxGet (SearchEqual fi.index k) 0).objectId ≠
          (idxGet (SearchEqual fi.index k) 1).objectId := by
        intro hcon
        rw [hg0, hg1] at hcon
        have := idsNodup_inj hn hp0 hp1 hcon
        omega
      obtain ⟨hf0i, hf0e⟩ := (hmm _).mp (idxGet_mem h0)
      obtain ⟨hf1i, hf1e⟩ := (hmm _).mp (idxGet_mem h1)
      refine ⟨⟨fun _ => ?_, fun _ => rfl⟩, Or.inl rfl⟩
      by_cases hid : (idxGet (SearchEqual fi.index k) 0).objectId = objid
      · refine ⟨_, hf1i, hf1e, Or.inr ?_⟩
        rw [← hid]
        exact fun hcon => hne hcon.symm
      · exact ⟨_, hf0i, hf0e, Or.inr hid⟩

theorem c5_witness :
    wFI1.constraints.unique = true ∧ FIWF ValueTy.i64 wFI1 ∧
    (⟨Value.vint 1, 0⟩ : IndexedField).value.ty = ValueTy.i64 ∧
    ((wFI1.Satisfy 0 true ⟨Value.vint 1, 0⟩ = some .fieldUnique ↔
       ∃ f ∈ wFI1.index, f.equal ⟨Value.vint 1, 0⟩ = true ∧
         (true = false ∨ f.objectId ≠ 0)) ∧
     (wFI1.Satisfy 0 true ⟨Value.vint 1, 0⟩ = some .fieldUnique ∨
       wFI1.Satisfy 0 true ⟨Value.vint 1, 0⟩ = none)) := by
  have h1 : wFI1.constraints.unique = true := by decide
  have h2 : FIWF ValueTy.i64 wFI1 := by decide
  have h3 : (⟨Value.vint 1, 0⟩ : IndexedField).value.ty = ValueTy.i64 := by
    decide
  exact ⟨h1, h2, h3, c5_satisfy_iff h1 h2 h3⟩

/-- C8: inserting a value under an object id absent from a well-formed
field index and then deleting that id restores the ordered sequence and the
object-id reverse map exactly (`Delete ∘ Insert` is the identity on both). -/
theorem c8_insert_delete_id {t : ValueTy} {fi : FieldIndex} {v : Value}
    {id : Nat} (hwf : FIWF t fi) (hv : v.ty = t)
    (hfresh : alookup fi.objectIds id = none) :
    ∃ fi2, (fi.Insert v id).Delete id = .ok fi2 ∧
      fi2.index = fi.index ∧ fi2.objectIds = fi.objectIds := by
  have hfresh1 : ∀ g ∈ fi.index, g.objectId ≠ id := by
    intro g hg hcon
    have hc := hwf.2.2.2.2.1 g hg
    rw [hcon, hfresh] at hc
    cases hc
  obtain ⟨hidx, hoid, _, _, hlen, hwf2⟩ := insert_spec hwf hv hfresh1 hfresh
  have hlk : alookup (fi.Insert v id).objectIds id = some ⟨v, id⟩ := by
    rw [hoid, alookup_append_right hfresh]
    simp [alookup]
  obtain ⟨q, hq, hqg, _, hdel⟩ := delete_ok hwf2 hlk
  have hr : InsertionIndex fi.index ⟨v, id⟩ ≤ fi.index.length :=
    (insertionIndex_spec hwf.1 hwf.2.1 hv).1
  have htk : (fi.index.take (InsertionIndex fi.index ⟨v, id⟩)).length =
      InsertionIndex fi.index ⟨v, id⟩ := by
    rw [List.length_take]
    omega
  have hrlt : InsertionIndex fi.index ⟨v, id⟩ <
      (fi.Insert v id).index.length := by omega
  have hlen2 : InsertionIndex fi.index ⟨v, id⟩ <
      (fi.index.take (InsertionIndex fi.index ⟨v, id⟩) ++
        ⟨v, id⟩ :: fi.index.drop (InsertionIndex fi.index ⟨v, id⟩)).length := by
    simp only [List.length_append, List.length_cons, List.length_take]
    omega
  have hrg : idxGet (fi.Insert v id).index
      (InsertionIndex fi.index ⟨v, id⟩) = ⟨v, id⟩ := by
    rw [hidx, idxGet_eq_get hlen2, List.get_eq_getElem,
      List.getElem_append_right (le_of_eq htk)]
    simp [htk]
  have hqr : q = InsertionIndex fi.index ⟨v, id⟩ := by
    have hideq : (idxGet (fi.Insert v id).index q).objectId =
        (idxGet (fi.Insert v id).index
          (InsertionIndex fi.index ⟨v, id⟩)).objectId := by
      rw [hqg, hrg]
    exact idsNodup_inj hwf2.2.2.1 hq hrlt hideq
  refine ⟨_, hdel, ?_, ?_⟩
  · show ((fi.Insert v id).index.eraseIdx q) = fi.index
    rw [hqr, hidx]
    have he := eraseIdx_insert
      (fi.index.take (InsertionIndex fi.index ⟨v, id⟩))
      (fi.index.drop (InsertionIndex fi.index ⟨v, id⟩)) ⟨v, id⟩
    rw [htk] at he
    rw [he]
    exact List.take_append_drop _ _
  · show aerase (fi.Insert v id).objectIds id = fi.objectIds
    rw [hoid, aerase_append_right hfresh]
    simp [aerase]

theorem c8_witness :
    FIWF ValueTy.i64 wFI1 ∧ (Value.vint 7).ty = ValueTy.i64 ∧
    alookup wFI1.objectIds 5 = none ∧
    (∃ fi2, (wFI1.Insert (Value.vint 7) 5).Delete 5 = .ok fi2 ∧
      fi2.index = wFI1.index ∧ fi2.objectIds = wFI1.objectIds) := by
  have h1 : FIWF ValueTy.i64 wFI1 := by decide
  have h2 : (Value.vint 7).ty = ValueTy.i64 := by decide
  have h3 : alookup wFI1.objectIds 5 = none := by decide
  exact ⟨h1, h2, h3, c8_insert_delete_id h1 h2 h3⟩

/-- C6: an `Or` step over an error-free prior result yields the fresh
probe's fields first, followed by exactly those prior fields whose object
id is absent from the fresh result; for duplicate-free operands no object
id occurs twice in the merge. -/
theorem c6_or_merge {s fresh : Search} (hs : s.error = none) :
    (s.Or fresh).fields =
      fresh.fields ++ s.fields.filter
        (fun f => decide (∀ g ∈ fresh.fields, g.objectId ≠ f.objectId)) ∧
    (IdsNodup s.fields → IdsNodup fresh.fields →
      IdsNodup (s.Or fresh).fields) := by
  have hmember : ∀ j,
      (alookup (fresh.fields.foldl (fun m g => aset m g.objectId true)
        ([] : List (Nat × Bool))) j).isSome = true ↔
      ∃ g ∈ fresh.fields, g.objectId = j := by
    intro j
    rw [marked_isSome]
    simp [alookup]
  have hfilter : s.fields.filter
      (fun f => !(alookup (fresh.fields.foldl
        (fun m g => aset m g.objectId true) ([] : List (Nat × Bool)))
        f.objectId).isSome) =
      s.fields.filter
        (fun f => decide (∀ g ∈ fresh.fields, g.objectId ≠ f.objectId)) := by
    apply List.filter_congr
    intro f _
    by_cases hx : ∃ g ∈ fresh.fields, g.objectId = f.objectId
    · have h1 := (hmember f.objectId).mpr hx
      simp only [h1, Bool.not_true]
      symm
      rw [decide_eq_false_iff_not]
      push_neg
      exact hx
    · have h1 : (alookup (fresh.fields.foldl
          (fun m g => aset m g.objectId true) ([] : List (Nat × Bool)))
          f.objectId).isSome = false := by
        cases hcase : (alookup (fresh.fields.foldl
            (fun m g => aset m g.objectId true) ([] : List (Nat × Bool)))
            f.objectId).isSome
        · rfl
        · exact absurd ((hmember f.objectId).mp hcase) hx
      simp only [h1, Bool.not_false]
      symm
      rw [decide_eq_true_eq]
      intro g hg hge
      exact hx ⟨g, hg, hge⟩
  have hor : (s.Or fresh).fields =
      fresh.fields ++ s.fields.filter
        (fun f => decide (∀ g ∈ fresh.fields, g.objectId ≠ f.objectId)) := by
    rw [or_fields_eq hs, hfilter]
  refine ⟨hor, ?_⟩
  intro hnods hnodf
  rw [IdsNodup, hor, List.map_append, List.nodup_append]
  refine ⟨hnodf, ?_, ?_⟩
  · exact List.Nodup.sublist ((List.filter_sublist _).map _) hnods
  · intro a ha hb
    obtain ⟨g, hg, hge⟩ := List.mem_map.mp ha
    obtain ⟨f, hf, hfe⟩ := List.mem_map.mp hb
    have hfp := List.of_mem_filter hf
    rw [decide_eq_true_eq] at hfp
    exact hfp g hg (by rw [hge, hfe])

theorem c6_witness :
    (⟨[⟨Value.vint 1, 10⟩, ⟨Value.vint 2, 11⟩], none⟩ : Search).error =
      none ∧
    ((Search.Or ⟨[⟨Value.vint 1, 10⟩, ⟨Value.vint 2, 11⟩], none⟩
        ⟨[⟨Value.vint 5, 11⟩, ⟨Value.vint 6, 12⟩], none⟩).fields =
      (⟨[⟨Value.vint 5, 11⟩, ⟨Value.vint 6, 12⟩], none⟩ : Search).fields ++
        (⟨[⟨Value.vint 1, 10⟩, ⟨Value.vint 2, 11⟩], none⟩ :
            Search).fields.filter
          (fun f => decide (∀ g ∈ (⟨[⟨Value.vint 5, 11⟩,
            ⟨Value.vint 6, 12⟩], none⟩ : Search).fields,
            g.objectId ≠ f.objectId)) ∧
     (IdsNodup (⟨[⟨Value.vint 1, 10⟩, ⟨Value.vint 2, 11⟩], none⟩ :
         Search).fields →
      IdsNodup (⟨[⟨Value.vint 5, 11⟩, ⟨Value.vint 6, 12⟩], none⟩ :
         Search).fields →
      IdsNodup (Search.Or ⟨[⟨Value.vint 1, 10⟩, ⟨Value.vint 2, 11⟩], none⟩
        ⟨[⟨Value.vint 5, 11⟩, ⟨Value.vint 6, 12⟩], none⟩).fields)) := by
  have h1 : (⟨[⟨Value.vint 1, 10⟩, ⟨Value.vint 2, 11⟩], none⟩ :
      Search).error = none := rfl
  exact ⟨h1, c6_or_merge h1⟩

/-- C9: a field index never inserted into keeps the empty cast tag (true of
every `newFieldIndex` output), and `objIndex.search` on such a field fails
with the casting error for every operator and every probe value, never with
an empty error-free result. -/
theorem c9_empty_cast_search {compile : String → Option (String → Bool)}
    {I : ObjIndex} {o : Obj} {field op : String} {value : Value}
    {constrain : Option (List IndexedField)} {fi0 : FieldIndex} {w : Value}
    (hf : fieldByName o field = some w)
    (hfi : alookup I.fields field = some fi0) (hcast : fi0.cast = "") :
    (∀ d : FieldDescriptor, (newFieldIndex d).cast = "") ∧
    I.search compile o field op value constrain =
      some (.error (.casting "")) := by
  refine ⟨fun d => rfl, ?_⟩
  have hne : value.ty.string ≠ "" := by
    cases value <;> simp [Value.ty, ValueTy.string]
  simp only [ObjIndex.search, hf, hfi]
  rw [if_pos ?hcond]
  case hcond =>
    show fi0.cast ≠ (⟨value, 0⟩ : IndexedField).valueTypeString
    rw [hcast]
    exact fun hcon => hne hcon.symm
  rw [hcast]

theorem c9_witness :
    fieldByName (cObj "" 1) "A" = some (Value.vint 1) ∧
    alookup (newIndex [cDescA]).fields "A" = some (newFieldIndex cDescA) ∧
    (newFieldIndex cDescA).cast = "" ∧
    ((∀ d : FieldDescriptor, (newFieldIndex d).cast = "") ∧
     (newIndex [cDescA]).search compileToy (cObj "" 1) "A" "="
       (Value.vint 1) none = some (.error (.casting ""))) := by
  have h1 : fieldByName (cObj "" 1) "A" = some (Value.vint 1) := by decide
  have h2 : alookup (newIndex [cDescA]).fields "A" =
      some (newFieldIndex cDescA) := by decide
  have h3 : (newFieldIndex cDescA).cast = "" := by decide
  exact ⟨h1, h2, h3, c9_empty_cast_search h1 h2 h3⟩

/-- C1: when the validation phase of `InsertOrUpdateMany` fails on any
record of the batch — wrong type, invalid record, a batch-internal conflict
caught by the temporary index, or a live-index constraint violation — the
call surfaces that error with a written count of 0 and the database state
(schema with its object index, cache, async queue, disk, committed schema)
exactly as before the call. -/
theorem c1_many_validation_atomic {otransform : Obj → Obj} {db : DBState}
    {o0 : Obj} {rest : List Obj} {supply : List String} {e : Err}
    {st : List Obj × ObjIndex × List String}
    (htyp : db.schema.typ = o0.typ)
    (hval : validateLoop otransform db.schema o0.typ db
      db.schema.makeTmpIndex supply (o0 :: rest) = .err e st) :
    DBState.InsertOrUpdateMany otransform db (o0 :: rest) supply =
      .err e (0, db) := by
  simp only [DBState.InsertOrUpdateMany]
  rw [if_neg (by simp [htyp]), hval]

theorem c1_witness :
    wDb1.schema.typ = (cObj "" 2).typ ∧
    validateLoop id wDb1.schema (cObj "" 2).typ wDb1
      wDb1.schema.makeTmpIndex ["g2", "g3", "g4"]
      (cObj "" 2 :: [cObj "" 3, cObj "" 2]) =
      .err .fieldUnique ([], wTmpE, []) ∧
    DBState.InsertOrUpdateMany id wDb1 (cObj "" 2 :: [cObj "" 3, cObj "" 2])
      ["g2", "g3", "g4"] = .err .fieldUnique (0, wDb1) := by
  have h1 : wDb1.schema.typ = (cObj "" 2).typ := by decide
  have h2 : validateLoop id wDb1.schema (cObj "" 2).typ wDb1
      wDb1.schema.makeTmpIndex ["g2", "g3", "g4"]
      (cObj "" 2 :: [cObj "" 3, cObj "" 2]) =
      .err .fieldUnique ([], wTmpE, []) := by decide
  exact ⟨h1, h2, c1_many_validation_atomic h1 h2⟩

/-- C2: on the single-object write path an error raised by the indexing
step leaves the disk, the async write queue and the committed schema
untouched, but the cache already holds the rejected object whenever caching
(or async writing) is enabled — the cache write happens before indexing, so
only the weaker frame holds, not the claimed untouched cache. -/
theorem c2_index_error_frame {db : DBState} {o : Obj} {commit : Bool}
    {supply supply2 : List String} {e : Err} {db2 : DBState}
    (ho : o.uuid ≠ "")
    (h : db.insertOrUpdate o commit supply = .err e (db2, supply2)) :
    db2.disk = db.disk ∧ db2.asyncq = db.asyncq ∧
    db2.schemaDisk = db.schemaDisk ∧
    db2.cache = (if db.schema.mustCache then aset db.cache o.uuid o
      else db.cache) := by
  have hini : initializeObj supply db o = some (o, supply) := by
    rw [initializeObj, if_pos ho]
  simp only [DBState.insertOrUpdate, hini] at h
  by_cases hmc : db.schema.mustCache = true
  · rw [if_pos hmc] at h
    split at h
    · cases h
    · simp only [MRes.err.injEq, Prod.mk.injEq] at h
      obtain ⟨he, hdb, hsup⟩ := h
      subst hdb
      exact ⟨rfl, rfl, rfl, by rw [if_pos hmc]⟩
    · split at h
      · cases h
      · split at h
        · cases h
        · cases h
  · rw [if_neg hmc] at h
    split at h
    · cases h
    · simp only [MRes.err.injEq, Prod.mk.injEq] at h
      obtain ⟨he, hdb, hsup⟩ := h
      subst hdb
      exact ⟨rfl, rfl, rfl, by rw [if_neg hmc]⟩
    · split at h
      · cases h
      · split at h
        · cases h
        · cases h

/-- C2 counterexample to the spec as written: with caching enabled, a
single-object write rejected by the uniqueness check at the indexing step
returns the error with the rejected object already sitting in the cache —
disk and queue are untouched, the cache is not. -/
theorem c2_counterexample :
    wDb42.insertOrUpdate (cObj "u2" 42) true ["g9"] =
      .err .fieldUnique (wDb42c, ["g9"]) ∧
    alookup wDb42c.cache "u2" = some (cObj "u2" 42) ∧
    alookup wDb42c.disk "u2" = none ∧
    alookup wDb42c.asyncq "u2" = none := by
  decide

theorem c2_witness :
    (cObj "u2" 42).uuid ≠ "" ∧
    wDb42.insertOrUpdate (cObj "u2" 42) true ["g9"] =
      .err .fieldUnique (wDb42c, ["g9"]) ∧
    (wDb42c.disk = wDb42.disk ∧ wDb42c.asyncq = wDb42.asyncq ∧
     wDb42c.schemaDisk = wDb42.schemaDisk ∧
     wDb42c.cache = (if wDb42.schema.mustCache then
       aset wDb42.cache (cObj "u2" 42).uuid (cObj "u2" 42)
       else wDb42.cache)) := by
  have h1 : (cObj "u2" 42).uuid ≠ "" := by decide
  have h2 : wDb42.insertOrUpdate (cObj "u2" 42) true ["g9"] =
      .err .fieldUnique (wDb42c, ["g9"]) := by decide
  exact ⟨h1, h2, c2_index_error_frame h1 h2⟩

/-- C7: on the indexed path a regex search whose pattern does not compile
surfaces the compilation error as the query error; on the full-scan
fall-through path, however, `evaluate` swallows the compilation failure and
reports a match miss (`false`) for every object, so only the indexed half
of the claim holds. -/
theorem c7_regex_error {compile : String → Option (String → Bool)}
    {db : DBState} {o : Obj} {field : String} {value : Value}
    {constrain : Option (List IndexedField)} {pat : String}
    {fi0 : FieldIndex} {w : Value}
    (htyp : db.schema.typ = o.typ)
    (hprep : db.schema.prepare field value = .vstr pat)
    (hcomp : compile pat = none)
    (hf : fieldByName o field = some w)
    (hfi : alookup db.schema.objectIndex.fields field = some fi0)
    (hcast : fi0.cast = "string") :
    db.search compile o field "~=" value constrain =
      some (⟨[], some (.regexCompile pat)⟩, db) ∧
    (∀ f : IndexedField, f.evaluate compile "~=" ⟨Value.vstr pat, 0⟩ =
      some false) := by
  have hbr : ∀ fi1 : FieldIndex, SearchByRegex compile fi1.index
      ⟨Value.vstr pat, 0⟩ = some (.error (.regexCompile pat)) := by
    intro fi1
    simp only [SearchByRegex, hcomp]
  have hcnd : ¬ fi0.cast ≠
      (⟨Value.vstr pat, 0⟩ : IndexedField).valueTypeString := by
    rw [hcast]
    exact fun hcon => hcon rfl
  constructor
  · have hos : db.schema.objectIndex.search compile o field "~="
        (db.schema.prepare field value) constrain =
        some (.error (.regexCompile pat)) := by
      rw [hprep]
      cases constrain with
      | none =>
        simp only [ObjIndex.search, hf, hfi]
        rw [if_neg hcnd]
        exact hbr fi0
      | some c =>
        simp only [ObjIndex.search, hf, hfi]
        rw [if_neg hcnd]
        exact hbr (fi0.Constrain c)
    simp only [DBState.search]
    rw [if_neg (by simp [htyp]), hos]
  · intro f
    have hb : f.evaluate compile "~=" ⟨Value.vstr pat, 0⟩ =
        (match compile pat with
         | none => some false
         | some m =>
           match f.value with
           | .vstr s => some (m s)
           | _ => some false) := rfl
    rw [hb, hcomp]

/-- C7 counterexample to the spec as written: searching the non-indexed
field `B` with the non-compiling pattern falls through to the full scan,
which treats the compilation failure as a per-object match miss — the query
ends with an empty, error-free result instead of surfacing the error. -/
theorem c7_counterexample :
    compileToy "[" = none ∧
    wDbB.search compileToy (cObjB "" "") "B" "~=" (Value.vstr "[") none =
      some (⟨[], none⟩, wDbB) := by
  refine ⟨rfl, by decide⟩

theorem c7_witness :
    wDbS.schema.typ = (cObjS "" "").typ ∧
    wDbS.schema.prepare "S" (Value.vstr "[") = Value.vstr "[" ∧
    compileToy "[" = none ∧
    fieldByName (cObjS "" "") "S" = some (Value.vstr "") ∧
    alookup wDbS.schema.objectIndex.fields "S" = some wFIS ∧
    wFIS.cast = "string" ∧
    (wDbS.search compileToy (cObjS "" "") "S" "~=" (Value.vstr "[") none =
       some (⟨[], some (.regexCompile "[")⟩, wDbS) ∧
     (∀ f : IndexedField, f.evaluate compileToy "~=" ⟨Value.vstr "[", 0⟩ =
       some false)) := by
  have h1 : wDbS.schema.typ = (cObjS "" "").typ := by decide
  have h2 : wDbS.schema.prepare "S" (Value.vstr "[") = Value.vstr "[" := by
    decide
  have h3 : compileToy "[" = none := rfl
  have h4 : fieldByName (cObjS "" "") "S" = some (Value.vstr "") := by
    decide
  have h5 : alookup wDbS.schema.objectIndex.fields "S" = some wFIS := by
    decide
  have h6 : wFIS.cast = "string" := by decide
  exact ⟨h1, h2, h3, h4, h5, h6, c7_regex_error h1 h2 h3 h4 h5 h6⟩

end Sod

